import Mathlib

/-!
Verification of the masking/unmasking pipeline of `md-deepl-scb` (`src/main.py`).

The document buffer is modelled as `List Char`.  Python regexes are embedded as
explicit scanners that reproduce the backtracking behaviour of the concrete
patterns used in the source (`re.sub` / `re.search`, leftmost match,
greedy/lazy quantifiers).  Character classes `\s`, `\w`, `\d` are modelled at
their ASCII meaning, which is what the program relies on.  Python `str.replace`
is embedded as `replaceAll` (all non-overlapping occurrences, left to right,
replacements not rescanned); the placeholder keys of this program are never
empty, and `replaceAll` is only used with non-empty keys.  Python dicts keep
insertion order, so mask maps are association lists in insertion order.
-/

/-- ASCII whitespace, the characters matched by `\s` in the source regexes. -/
def isWs (c : Char) : Bool :=
  c = ' ' || c = '\t' || c = '\n' || c = '\r' || c = '\x0b' || c = '\x0c'

/-- ASCII word characters, the characters matched by `\w`. -/
def isWord (c : Char) : Bool :=
  ('a' ≤ c && c ≤ 'z') || ('A' ≤ c && c ≤ 'Z') || ('0' ≤ c && c ≤ '9') || c = '_'

/-- ASCII digits, the characters matched by `\d`. -/
def isDigitCh (c : Char) : Bool := '0' ≤ c && c ≤ '9'

/-- The backtick character (code 96), written via its code point. -/
def btk : Char := Char.ofNat 96

/-- Greedy run of characters satisfying `p`: returns the maximal prefix of
characters satisfying `p` together with the remaining suffix. -/
def takeRun (p : Char → Bool) : List Char → List Char × List Char
  | [] => ([], [])
  | c :: cs =>
    if p c then
      let r := takeRun p cs
      (c :: r.1, r.2)
    else ([], c :: cs)

/-- Embedding of Python `str.replace(old, new)`: replace all non-overlapping
occurrences of `old`, scanning left to right, never rescanning a replacement.
For `old = []` this is the identity (the program only replaces non-empty
placeholder keys). -/
def replaceAll (old new : List Char) : List Char → List Char
  | [] => []
  | c :: cs =>
    if h : old ≠ [] ∧ old.isPrefixOf (c :: cs) then
      new ++ replaceAll old new ((c :: cs).drop old.length)
    else
      c :: replaceAll old new cs
termination_by t => t.length
decreasing_by
  · have h1 : 1 ≤ old.length := by
      cases old with
      | nil => exact absurd rfl h.1
      | cons a as => simp
    simp only [List.length_drop, List.length_cons]
    omega
  · simp

/-- Decidable substring test: does `p` occur (contiguously) in `t`? -/
def hasSub (p : List Char) : List Char → Bool
  | [] => p.isPrefixOf []
  | c :: cs => p.isPrefixOf (c :: cs) || hasSub p cs

/-- Does `p` occur in `x ++ tail` starting at a position strictly inside `x`? -/
def occursBefore (p : List Char) : List Char → List Char → Bool
  | [], _ => false
  | c :: x, tail => p.isPrefixOf (c :: (x ++ tail)) || occursBefore p x tail

/-! ## `extract_deco` (decoration stripper, `src/main.py` lines 14-20)

`re.sub(r"\*\*(.+?)\*\*", r"\1", t)`: lazy group of at least one non-newline
character between two `**` delimiters, replaced by the group. -/

/-- Scan for the closing `**` of a bold span, lazily: at each position first
check for `**`, otherwise consume one non-newline character into the group. -/
def decoClose : List Char → Option (List Char × List Char)
  | [] => none
  | c :: cs =>
    if c = '*' ∧ cs.head? = some '*' then some ([], cs.tail)
    else if c = '\n' then none
    else (decoClose cs).map (fun r => (c :: r.1, r.2))

/-- Match the inside of a bold span right after the opening `**`: at least one
non-newline character, lazily extended until the first closing `**`. -/
def decoMatch : List Char → Option (List Char × List Char)
  | [] => none
  | c :: cs =>
    if c = '\n' then none
    else (decoClose cs).map (fun r => (c :: r.1, r.2))

theorem decoClose_eq {s g r : List Char} (h : decoClose s = some (g, r)) :
    s = g ++ '*' :: '*' :: r := by
  induction s generalizing g with
  | nil => simp [decoClose] at h
  | cons c cs ih =>
    unfold decoClose at h
    split at h
    · rename_i hc
      obtain ⟨hc1, hc2⟩ := hc
      cases cs with
      | nil => simp at hc2
      | cons b bs =>
        simp at hc2
        simp at h
        obtain ⟨hg, hr⟩ := h
        subst hg hr hc1 hc2
        simp
    · split at h
      · simp at h
      · cases hd : decoClose cs with
        | none => rw [hd] at h; simp at h
        | some p =>
          rw [hd] at h
          simp at h
          obtain ⟨hg, hr⟩ := h
          have := ih (g := p.1) (by rw [hd, ← hr])
          subst hg
          simp [this, ← hr]

theorem decoMatch_eq {s g r : List Char} (h : decoMatch s = some (g, r)) :
    s = g ++ '*' :: '*' :: r ∧ g ≠ [] := by
  cases s with
  | nil => simp [decoMatch] at h
  | cons c cs =>
    simp only [decoMatch] at h
    split at h
    · simp at h
    · cases hd : decoClose cs with
      | none => rw [hd] at h; simp at h
      | some p =>
        rw [hd] at h
        simp at h
        obtain ⟨hg, hr⟩ := h
        have := decoClose_eq (g := p.1) (r := r) (by rw [hd, ← hr])
        subst hg
        simp [this]

/-- Embedding of `extract_deco`: strip `**bold**` markup, keeping the inner
text.  Scans left to right, non-overlapping matches. -/
def extractDeco : List Char → List Char
  | [] => []
  | c :: cs =>
    if c = '*' ∧ cs.head? = some '*' then
      match h : decoMatch cs.tail with
      | some (g, r) => g ++ extractDeco r
      | none => c :: extractDeco cs
    else c :: extractDeco cs
termination_by t => t.length
decreasing_by
  · have he := (decoMatch_eq h).1
    have : cs.tail.length ≤ cs.length := by
      cases cs <;> simp
    have h2 : cs.tail.length = g.length + (2 + r.length) := by
      rw [he]; simp [List.length_append]; omega
    simp only [List.length_cons]
    omega
  · simp
  · simp

/-! ## `mask_ref` (reference masker, `src/main.py` lines 23-40)

`re.search(r"#+\s+References?", t, re.IGNORECASE)` followed by
`re.search(r"#+\s+\w+", t[start:])`.  Both patterns are deterministic at a
given start position (the `#`, `\s` and word/letter classes are pairwise
disjoint there, so greedy runs never backtrack usefully); `re.search` takes
the leftmost position at which the pattern matches. -/

/-- Match a literal word case-insensitively (pattern given in lowercase),
returning the consumed characters and the rest. -/
def matchWordCI : List Char → List Char → Option (List Char × List Char)
  | [], s => some ([], s)
  | _ :: _, [] => none
  | p :: ps, c :: s =>
    if c.toLower = p then (matchWordCI ps s).map (fun r => (c :: r.1, r.2)) else none

/-- Match `#+\s+References?` (case-insensitive) at the start of `s`: a run of
`#`, a run of whitespace, the word `reference` case-insensitively, and a
greedy optional trailing `s`/`S`.  Returns the matched text and the rest. -/
def matchRefAt (s : List Char) : Option (List Char × List Char) :=
  match takeRun (fun c => c = '#') s with
  | ([], _) => none
  | (h1 :: hs, s1) =>
    match takeRun isWs s1 with
    | ([], _) => none
    | (w1 :: ws, s2) =>
      match matchWordCI ("reference".data) s2 with
      | none => none
      | some (w, []) => some (((h1 :: hs) ++ (w1 :: ws)) ++ w, [])
      | some (w, c :: s4) =>
        if c.toLower = 's' then some ((((h1 :: hs) ++ (w1 :: ws)) ++ w) ++ [c], s4)
        else some (((h1 :: hs) ++ (w1 :: ws)) ++ w, c :: s4)

/-- Leftmost search for the references heading: returns
`(text before the match, matched heading, text after the match)`. -/
def searchRef : List Char → Option (List Char × List Char × List Char)
  | [] => none
  | c :: s =>
    match matchRefAt (c :: s) with
    | some (m, r) => some ([], m, r)
    | none => (searchRef s).map (fun pr => (c :: pr.1, pr.2.1, pr.2.2))

/-- Does `#+\s+\w+` match at the start of `s`?  (Only the start position of
this match is used by the source, so a Bool suffices.) -/
def secMatchAt (s : List Char) : Bool :=
  match takeRun (fun c => c = '#') s with
  | ([], _) => false
  | (_ :: _, s1) =>
    match takeRun isWs s1 with
    | ([], _) => false
    | (_ :: _, s2) =>
      match s2 with
      | c :: _ => isWord c
      | [] => false

/-- Leftmost search for the start of `#+\s+\w+`: splits `s` into the part
before the match start and the part from the match start on. -/
def searchSecIdx : List Char → Option (List Char × List Char)
  | [] => none
  | c :: s =>
    if secMatchAt (c :: s) then some ([], c :: s)
    else (searchSecIdx s).map (fun pr => (c :: pr.1, pr.2))

/-- The fixed reference placeholder token `#REF#`. -/
def refKey : List Char := "#REF#".data

/-- Embedding of `mask_ref`: find the first case-insensitive
`#+\s+References?` match; the section body runs from the end of that match to
the start of the next `#+\s+\w+` match (or to end of document); the body is
replaced by the single placeholder `#REF#` and stored under that key. -/
def maskRef (t : List Char) : List Char × List (List Char × List Char) :=
  match searchRef t with
  | none => (t, [])
  | some (pre, m, rest) =>
    match searchSecIdx rest with
    | some (body, post) => (pre ++ m ++ refKey ++ post, [(refKey, body)])
    | none => (pre ++ m ++ refKey, [(refKey, rest)])

/-! ## `mask_math` (math masker, `src/main.py` lines 43-58)

`re.compile(r"\${1,2}(.*?)\${1,2}", re.DOTALL).sub(repl, t)`, where `repl`
replaces the match with `EQ{counter:03d}` and stores the group (newlines
collapsed to spaces) wrapped as `[$ ... ]`. -/

/-- Split at the first `'$'`: returns the characters before it and after it. -/
def breakDollar : List Char → Option (List Char × List Char)
  | [] => none
  | c :: cs =>
    if c = '$' then some ([], cs)
    else (breakDollar cs).map (fun r => (c :: r.1, r.2))

/-- Greedy closing delimiter `\${1,2}`: having consumed one closing `'$'`,
consume a second one if present. -/
def closeDollars : List Char → List Char
  | [] => []
  | c :: cs => if c = '$' then cs else c :: cs

/-- Match `\${1,2}(.*?)\${1,2}` given the text right after the first `'$'` of
the opening delimiter: the greedy opening takes a second `'$'` if present, the
lazy group runs to the next `'$'`, and the greedy closing takes one or two
`'$'`.  When the two-`'$'` opening finds no closing `'$'`, the engine
backtracks to a one-`'$'` opening with an empty group.  Returns
`(group, rest after the match)`. -/
def tryMathMatch : List Char → Option (List Char × List Char)
  | [] => none
  | c :: cs =>
    if c = '$' then
      match breakDollar cs with
      | some (grp, rest) => some (grp, closeDollars rest)
      | none => some ([], cs)
    else
      match breakDollar (c :: cs) with
      | some (grp, rest) => some (grp, closeDollars rest)
      | none => none

theorem breakDollar_eq {s p r : List Char} (h : breakDollar s = some (p, r)) :
    s = p ++ '$' :: r := by
  induction s generalizing p with
  | nil => simp [breakDollar] at h
  | cons c cs ih =>
    simp only [breakDollar] at h
    split at h
    · rename_i hc
      simp at h
      obtain ⟨hp, hr⟩ := h
      subst hp hr hc
      simp
    · cases hd : breakDollar cs with
      | none => rw [hd] at h; simp at h
      | some q =>
        rw [hd] at h
        simp at h
        obtain ⟨hp, hr⟩ := h
        have := ih (p := q.1) (by rw [hd, ← hr])
        subst hp
        simp [this, ← hr]

theorem closeDollars_length (s : List Char) : (closeDollars s).length ≤ s.length := by
  cases s with
  | nil => simp [closeDollars]
  | cons c cs => simp only [closeDollars]; split <;> simp

theorem tryMathMatch_length {s g r : List Char} (h : tryMathMatch s = some (g, r)) :
    r.length ≤ s.length := by
  cases s with
  | nil => simp [tryMathMatch] at h
  | cons c cs =>
    simp only [tryMathMatch] at h
    split at h
    · cases hd : breakDollar cs with
      | none =>
        rw [hd] at h
        simp at h
        simp [← h.2]
      | some q =>
        rw [hd] at h
        simp at h
        have he := breakDollar_eq (p := q.1) (r := q.2) (by rw [hd])
        have hl := closeDollars_length q.2
        have : q.2.length ≤ cs.length := by
          rw [he]; simp [List.length_append]; omega
        rw [← h.2]
        simp only [List.length_cons]
        omega
    · cases hd : breakDollar (c :: cs) with
      | none => rw [hd] at h; simp at h
      | some q =>
        rw [hd] at h
        simp at h
        have he := breakDollar_eq (p := q.1) (r := q.2) (by rw [hd])
        have hl := closeDollars_length q.2
        have : q.2.length + q.1.length + 1 = cs.length + 1 := by
          have := congrArg List.length he
          simp [List.length_append] at this
          omega
        rw [← h.2]
        simp only [List.length_cons]
        omega

/-- Decimal digit character (defined by cases so its properties are provable
without `Char.ofNat` arithmetic). -/
def digitChar (n : Nat) : Char :=
  if n = 0 then '0' else if n = 1 then '1' else if n = 2 then '2'
  else if n = 3 then '3' else if n = 4 then '4' else if n = 5 then '5'
  else if n = 6 then '6' else if n = 7 then '7' else if n = 8 then '8' else '9'

/-- Decimal digits of a natural number, most significant first (the digits of
Python `str(n)` / `repr`). -/
def natToDigits (n : Nat) : List Char :=
  if n < 10 then [digitChar n]
  else natToDigits (n / 10) ++ [digitChar (n % 10)]
termination_by n
decreasing_by
  have : n / 10 < n := Nat.div_lt_self (by omega) (by omega)
  omega

/-- Zero-pad a digit list on the left to at least three characters, as Python
`f"{n:03d}"` does. -/
def pad3 (ds : List Char) : List Char := List.replicate (3 - ds.length) '0' ++ ds

/-- The math placeholder key `f"EQ{n:03d}"`. -/
def eqKeyL (n : Nat) : List Char := 'E' :: 'Q' :: pad3 (natToDigits n)

/-- Replace a newline by a space (the source's `newline.sub(r" ", ...)`). -/
def nl2sp (c : Char) : Char := if c = '\n' then ' ' else c

/-- The stored value for a math group: `f"[$ {math} ]"` with newlines in the
group collapsed to spaces. -/
def mathTemplate (grp : List Char) : List Char :=
  '[' :: '$' :: ' ' :: (grp.map nl2sp ++ [' ', ']'])

/-- Embedding of the `pattern.sub(repl, t)` loop of `mask_math`, threading the
counter: scan left to right; at each `'$'` attempt the math match; on success
substitute the next placeholder key and record `(key, templated group)` in the
map, in match order. -/
def maskMathAux : List Char → Nat → List Char × List (List Char × List Char)
  | [], _ => ([], [])
  | c :: cs, k =>
    if c = '$' then
      match h : tryMathMatch cs with
      | some (grp, rest) =>
        (eqKeyL k ++ (maskMathAux rest (k + 1)).1,
          (eqKeyL k, mathTemplate grp) :: (maskMathAux rest (k + 1)).2)
      | none => (c :: (maskMathAux cs k).1, (maskMathAux cs k).2)
    else (c :: (maskMathAux cs k).1, (maskMathAux cs k).2)
termination_by t _ => t.length
decreasing_by
  · have := tryMathMatch_length h
    simp only [List.length_cons]
    omega
  · simp
  · simp

/-- Embedding of `mask_math`: counter starts at 1. -/
def maskMath (t : List Char) : List Char × List (List Char × List Char) :=
  maskMathAux t 1

/-- Modelled from the spec: the intended net effect of masking then unmasking
math, namely `t` with every math span replaced in place by its rendered
display-math template (used as the comparison point for the round-trip
claim). -/
def renderMathAux : List Char → List Char
  | [] => []
  | c :: cs =>
    if c = '$' then
      match h : tryMathMatch cs with
      | some (grp, rest) => mathTemplate grp ++ renderMathAux rest
      | none => c :: renderMathAux cs
    else c :: renderMathAux cs
termination_by t => t.length
decreasing_by
  · have := tryMathMatch_length h
    simp only [List.length_cons]
    omega
  · simp
  · simp

/-- Spec-side rendering of a whole document's math spans. -/
def renderMath (t : List Char) : List Char := renderMathAux t

/-- Embedding of `unmask_ref`: replace every stored key by its value, in the
map's insertion order (`for mask, ref in dict.items(): t = t.replace(...)`). -/
def unmaskRef (t : List Char) (d : List (List Char × List Char)) : List Char :=
  d.foldl (fun acc kv => replaceAll kv.1 kv.2 acc) t

/-- Embedding of `unmask_math`: identical replacement loop over the math map. -/
def unmaskMath (t : List Char) (d : List (List Char × List Char)) : List Char :=
  d.foldl (fun acc kv => replaceAll kv.1 kv.2 acc) t

/-! ## `escape_brackets` (`src/main.py` lines 67-70)

`re.sub(r"\[(.*?)\]", r"`[\1]`", t)`: lazy, non-newline group between literal
brackets, wrapped in backticks. -/

/-- Scan for the closing `]` of a bracketed span: lazy, cannot cross a
newline. -/
def brkClose : List Char → Option (List Char × List Char)
  | [] => none
  | c :: cs =>
    if c = ']' then some ([], cs)
    else if c = '\n' then none
    else (brkClose cs).map (fun r => (c :: r.1, r.2))

theorem brkClose_eq {s g r : List Char} (h : brkClose s = some (g, r)) :
    s = g ++ ']' :: r := by
  induction s generalizing g with
  | nil => simp [brkClose] at h
  | cons c cs ih =>
    simp only [brkClose] at h
    split at h
    · rename_i hc
      simp at h
      obtain ⟨hg, hr⟩ := h
      subst hg hr hc
      simp
    · split at h
      · simp at h
      · cases hd : brkClose cs with
        | none => rw [hd] at h; simp at h
        | some q =>
          rw [hd] at h
          simp at h
          obtain ⟨hg, hr⟩ := h
          have := ih (g := q.1) (by rw [hd, ← hr])
          subst hg
          simp [this, ← hr]

/-- Embedding of `escape_brackets`: wrap every (lazy, single-line) bracketed
span in backticks. -/
def escapeBrackets : List Char → List Char
  | [] => []
  | c :: cs =>
    if c = '[' then
      match h : brkClose cs with
      | some (g, r) => btk :: '[' :: (g ++ ']' :: btk :: escapeBrackets r)
      | none => c :: escapeBrackets cs
    else c :: escapeBrackets cs
termination_by t => t.length
decreasing_by
  · have he := brkClose_eq h
    have := congrArg List.length he
    simp [List.length_append] at this
    simp only [List.length_cons]
    omega
  · simp
  · simp

/-! ## `replace_headings` (`src/main.py` lines 81-90)

`re.sub(r"^[\d\.]*(#+)\s+(.+?)\n", repl, t)` with NO `re.MULTILINE`: the `^`
anchor matches only at position 0 of the buffer, so at most one heading (the
one at the very start of the buffer, if any) is rewritten.  Backtracking: the
digit/dot run, the `#` run and the whitespace run are greedy; on failure of
`(.+?)\n` the whitespace run is shortened one character at a time (its shifted
characters then belong to the lazy title group). -/

/-- Split a list at its last element. -/
def splitLast : List Char → Option (List Char × Char)
  | [] => none
  | [c] => some ([], c)
  | c :: c2 :: cs => (splitLast (c2 :: cs)).map (fun r => (c :: r.1, r.2))

theorem splitLast_eq {s r : List Char} {c : Char} (h : splitLast s = some (r, c)) :
    s = r ++ [c] := by
  induction s generalizing r with
  | nil => simp [splitLast] at h
  | cons a as ih =>
    cases as with
    | nil => simp [splitLast] at h; simp [h.1.symm, h.2.symm]
    | cons b bs =>
      simp only [splitLast] at h
      cases hd : splitLast (b :: bs) with
      | none => rw [hd] at h; simp at h
      | some q =>
        rw [hd] at h
        simp at h
        obtain ⟨hg, hr⟩ := h
        have := ih (r := q.1) (by rw [hd, ← hr])
        subst hg
        simp [this, ← hr]

/-- Split at the first newline. -/
def brkNlSplit : List Char → Option (List Char × List Char)
  | [] => none
  | c :: cs =>
    if c = '\n' then some ([], cs)
    else (brkNlSplit cs).map (fun r => (c :: r.1, r.2))

/-- Match `(.+?)\n` at the start of `s`: at least one non-newline character,
lazily out to the first newline; returns `(title, rest after the newline)`. -/
def tryTitle (s : List Char) : Option (List Char × List Char) :=
  match s with
  | [] => none
  | c :: _ => if c = '\n' then none else brkNlSplit s

/-- Try the splits `\s+` / `(.+?)\n` from the greedy (longest whitespace run)
side, moving one trailing whitespace character into the title region per
backtracking step.  `w` is the whitespace still assigned to `\s+`. -/
def trySplits : List Char → List Char → Option (List Char × List Char)
  | w, b =>
    match tryTitle b with
    | some r => if w.isEmpty then none else some r
    | none =>
      match h : splitLast w with
      | none => none
      | some (w2, c) => trySplits w2 (c :: b)
termination_by w _ => w.length
decreasing_by
  · have := splitLast_eq h
    have := congrArg List.length this
    simp at this
    omega

/-- Match `^[\d\.]*(#+)\s+(.+?)\n` at position 0: returns the `#` count, the
title group, and the rest of the buffer after the consumed newline. -/
def headMatch (s : List Char) : Option (Nat × List Char × List Char) :=
  match takeRun (fun c => isDigitCh c || c = '.') s with
  | (_, s0) =>
    match takeRun (fun c => c = '#') s0 with
    | ([], _) => none
    | (h1 :: hs, s1) =>
      match takeRun isWs s1 with
      | ([], _) => none
      | (w1 :: ws, s2) =>
        match trySplits (w1 :: ws) s2 with
        | some (tit, rest) => some ((h1 :: hs).length, tit, rest)
        | none => none

/-- Embedding of `replace_headings`: with `^` and no `re.MULTILINE` the
substitution applies at most once, at the start of the buffer, producing
`[{'*' * max(1, 4 - level)} {title}]` (numeric prefix stripped, trailing
newline consumed). -/
def replaceHeadings (t : List Char) : List Char :=
  match headMatch t with
  | some (n, tit, rest) =>
    '[' :: (List.replicate (max 1 (4 - n)) '*' ++ ' ' :: (tit ++ ']' :: rest))
  | none => t

/-! ## `replace_images` (`src/main.py` lines 93-116)

`re.sub(r"!`\[(.*?)\]`\((.*?)\)", repl, t)` where `repl` downloads the URL
(group 2); a non-200 response aborts the process (`exit(1)`), modelled as
`none`; otherwise the image is uploaded and the span is replaced by
`[normalized-url]`.  The external fetch and upload are parameters. -/

/-- Scan for the closing sequence of the alt-text group: a literal
`]` backtick `(` (lazy group, no newline). -/
def imgClose1 : List Char → Option (List Char × List Char)
  | [] => none
  | c :: cs =>
    if c = ']' ∧ cs.head? = some btk ∧ cs.tail.head? = some '(' then
      some ([], cs.tail.tail)
    else if c = '\n' then none
    else (imgClose1 cs).map (fun r => (c :: r.1, r.2))

/-- Scan for the closing `)` of the URL group (lazy, no newline). -/
def imgClose2 : List Char → Option (List Char × List Char)
  | [] => none
  | c :: cs =>
    if c = ')' then some ([], cs)
    else if c = '\n' then none
    else (imgClose2 cs).map (fun r => (c :: r.1, r.2))

theorem imgClose1_eq {s g r : List Char} (h : imgClose1 s = some (g, r)) :
    s = g ++ ']' :: btk :: '(' :: r := by
  induction s generalizing g with
  | nil => simp [imgClose1] at h
  | cons c cs ih =>
    simp only [imgClose1] at h
    split at h
    · rename_i hc
      obtain ⟨hc1, hc2, hc3⟩ := hc
      cases cs with
      | nil => simp at hc2
      | cons b bs =>
        simp at hc2
        cases bs with
        | nil => simp at hc3
        | cons b2 bs2 =>
          simp at hc3
          simp at h
          obtain ⟨hg, hr⟩ := h
          subst hg hr hc1 hc2 hc3
          simp
    · split at h
      · simp at h
      · cases hd : imgClose1 cs with
        | none => rw [hd] at h; simp at h
        | some q =>
          rw [hd] at h
          simp at h
          obtain ⟨hg, hr⟩ := h
          have := ih (g := q.1) (by rw [hd, ← hr])
          subst hg
          simp [this, ← hr]

theorem imgClose2_eq {s g r : List Char} (h : imgClose2 s = some (g, r)) :
    s = g ++ ')' :: r := by
  induction s generalizing g with
  | nil => simp [imgClose2] at h
  | cons c cs ih =>
    simp only [imgClose2] at h
    split at h
    · rename_i hc
      simp at h
      obtain ⟨hg, hr⟩ := h
      subst hg hr hc
      simp
    · split at h
      · simp at h
      · cases hd : imgClose2 cs with
        | none => rw [hd] at h; simp at h
        | some q =>
          rw [hd] at h
          simp at h
          obtain ⟨hg, hr⟩ := h
          have := ih (g := q.1) (by rw [hd, ← hr])
          subst hg
          simp [this, ← hr]

/-- Match the image pattern given the text right after the opening three
characters: find the next alt-closing `]` backtick `(`; if the URL group then
fails to close before a newline, the lazy alt group backtracks past that
position and the search resumes.  Returns `(url, rest after the match)`. -/
def imgMatch (s : List Char) : Option (List Char × List Char) :=
  match h : imgClose1 s with
  | none => none
  | some (_, r1) =>
    match imgClose2 r1 with
    | some (url, r2) => some (url, r2)
    | none => imgMatch r1
termination_by s.length
decreasing_by
  · have he := imgClose1_eq h
    rw [he]
    simp [List.length_append]
    omega

theorem imgMatch_length_aux : ∀ (n : Nat) (s : List Char), s.length ≤ n →
    ∀ {url r2 : List Char}, imgMatch s = some (url, r2) → r2.length < s.length := by
  intro n
  induction n with
  | zero =>
    intro s hs url r2 h
    have hnil : s = [] := List.length_eq_zero.mp (Nat.le_zero.mp hs)
    subst hnil
    rw [imgMatch] at h
    simp [imgClose1] at h
  | succ n ih =>
    intro s hs url r2 h
    rw [imgMatch] at h
    split at h
    · simp at h
    · rename_i alt r1 hc
      split at h
      · rename_i u r hc2
        simp at h
        obtain ⟨hu, hr⟩ := h
        subst hr
        have he1 := imgClose1_eq hc
        have he2 := imgClose2_eq hc2
        rw [he1, he2]
        simp [List.length_append]
        omega
      · have he1 := imgClose1_eq hc
        have hl1 := congrArg List.length he1
        simp [List.length_append] at hl1
        have hlen : r1.length ≤ n := by omega
        have := ih r1 hlen h
        omega

theorem imgMatch_length {s url r2 : List Char} (h : imgMatch s = some (url, r2)) :
    r2.length < s.length :=
  imgMatch_length_aux s.length s (Nat.le_refl _) h

/-- The canonical normalization chain applied to the uploaded image URL:
`url.replace("i.gyazo.com", "gyazo.com").replace(".png", "").replace(".jpg", "")`. -/
def normalizeUrl (u : List Char) : List Char :=
  replaceAll (".jpg".data) []
    (replaceAll (".png".data) []
      (replaceAll ("i.gyazo.com".data) ("gyazo.com".data) u))

/-- Embedding of `replace_images`, parameterized by the external collaborators
`fetch` (returns `none` on a non-200 response) and `upload` (returns the
hosted URL).  A failed fetch aborts the whole pass with `none`; otherwise the
matched span is replaced by `[normalizeUrl (upload bytes)]`, the alt text
being discarded. -/
def replaceImages (fetch : List Char → Option (List Char))
    (upload : List Char → List Char) : List Char → Option (List Char)
  | [] => some []
  | c :: cs =>
    if c = '!' ∧ cs.head? = some btk ∧ cs.tail.head? = some '[' then
      match h : imgMatch cs.tail.tail with
      | some (url, r2) =>
        match fetch url with
        | none => none
        | some img =>
          (replaceImages fetch upload r2).map
            (fun t => '[' :: (normalizeUrl (upload img) ++ ']' :: t))
      | none => (replaceImages fetch upload cs).map (fun t => c :: t)
    else (replaceImages fetch upload cs).map (fun t => c :: t)
termination_by t => t.length
decreasing_by
  · have := imgMatch_length h
    have h1 : cs.tail.tail.length ≤ cs.length := by
      cases cs with
      | nil => simp
      | cons b bs => cases bs <;> simp [Nat.le_succ_of_le]
    simp only [List.length_cons]
    omega
  · simp
  · simp

/-- The URL groups of all image matches of the buffer, in match order
(determined by the text alone, independent of fetch outcomes). -/
def imageUrlsIn : List Char → List (List Char)
  | [] => []
  | c :: cs =>
    if c = '!' ∧ cs.head? = some btk ∧ cs.tail.head? = some '[' then
      match h : imgMatch cs.tail.tail with
      | some (url, r2) => url :: imageUrlsIn r2
      | none => imageUrlsIn cs
    else imageUrlsIn cs
termination_by t => t.length
decreasing_by
  · have := imgMatch_length h
    have h1 : cs.tail.tail.length ≤ cs.length := by
      cases cs with
      | nil => simp
      | cons b bs => cases bs <;> simp [Nat.le_succ_of_le]
    simp only [List.length_cons]
    omega
  · simp
  · simp

/-- The pipeline of `main` (`src/main.py` lines 162-187) with the external
translation step replaced by the identity stub: decoration strip, reference
mask, math mask, (identity translate), reference unmask, bracket escape, math
unmask, heading rewrite, image relocate. -/
def pipelineStub (fetch : List Char → Option (List Char))
    (upload : List Char → List Char) (t : List Char) : Option (List Char) :=
  let t1 := extractDeco t
  let p2 := maskRef t1
  let p3 := maskMath p2.1
  let t4 := p3.1
  let t5 := unmaskRef t4 p2.2
  let t6 := escapeBrackets t5
  let t7 := unmaskMath t6 p3.2
  let t8 := replaceHeadings t7
  replaceImages fetch upload t8

/-! ## Generic lemmas about `replaceAll`, `hasSub`, `occursBefore` -/

theorem isPrefixOf_append_of_le : ∀ {p s : List Char} (y : List Char),
    p.length ≤ s.length → p.isPrefixOf (s ++ y) = p.isPrefixOf s := by
  intro p
  induction p with
  | nil => intro s y _; simp [List.isPrefixOf]
  | cons a ps ih =>
    intro s y h
    cases s with
    | nil => simp at h
    | cons b bs =>
      simp only [List.cons_append, List.isPrefixOf, List.append_eq]
      rw [ih y (by simpa using h)]

theorem isPrefixOf_self_append (p y : List Char) : p.isPrefixOf (p ++ y) = true := by
  simp [List.isPrefixOf_iff_prefix]

theorem hasSub_of_prefixOf {p s : List Char} (hp : p.isPrefixOf s = true) :
    hasSub p s = true := by
  cases s with
  | nil => simp only [hasSub]; exact hp
  | cons c cs => simp [hasSub, hp]

theorem hasSub_cons_of {p : List Char} {c : Char} {cs : List Char}
    (h : hasSub p cs = true) : hasSub p (c :: cs) = true := by
  simp [hasSub, h]

theorem hasSub_append_right {p x y : List Char} (h : hasSub p y = true) :
    hasSub p (x ++ y) = true := by
  induction x with
  | nil => simpa
  | cons c cs ih => exact hasSub_cons_of ih

theorem hasSub_append_left {p x y : List Char} (h : hasSub p x = true) :
    hasSub p (x ++ y) = true := by
  induction x with
  | nil =>
    simp [hasSub] at h
    subst h
    cases y with
    | nil => simp [hasSub, List.isPrefixOf]
    | cons c cs => simp [hasSub, List.isPrefixOf]
  | cons c cs ih =>
    simp only [hasSub, Bool.or_eq_true] at h
    rcases h with h | h
    · have : p.isPrefixOf ((c :: cs) ++ y) = true := by
        rw [List.isPrefixOf_iff_prefix] at h ⊢
        exact h.trans (List.prefix_append _ _)
      exact hasSub_of_prefixOf this
    · exact hasSub_cons_of (ih h)

theorem hasSub_of_infix {p s t : List Char} (h : hasSub p s = true)
    (hinf : s <:+: t) : hasSub p t = true := by
  obtain ⟨u, v, rfl⟩ := hinf
  exact hasSub_append_left (hasSub_append_right h)

/-- If `p` does not occur in `t`, replacing it is the identity. -/
theorem replaceAll_of_not_hasSub {p v t : List Char} (h : hasSub p t = false) :
    replaceAll p v t = t := by
  induction t with
  | nil => simp [replaceAll]
  | cons c cs ih =>
    simp only [hasSub, Bool.or_eq_false_iff] at h
    rw [replaceAll]
    rw [dif_neg (by simp [h.1])]
    rw [ih h.2]

/-- Replacing at the front: `replaceAll` on `p ++ y` replaces the leading
occurrence and continues in `y` only (the replacement is not rescanned). -/
theorem replaceAll_head {p v y : List Char} (hp : p ≠ []) :
    replaceAll p v (p ++ y) = v ++ replaceAll p v y := by
  cases hc : p ++ y with
  | nil =>
    cases p with
    | nil => exact absurd rfl hp
    | cons a as => simp at hc
  | cons a as =>
    rw [replaceAll]
    rw [dif_pos ⟨hp, by rw [← hc]; exact isPrefixOf_self_append p y⟩]
    congr 1
    rw [← hc, List.drop_left]

/-- Replacing the explicitly placed first occurrence: if `p` does not occur
starting inside `x`, then `replaceAll` on `x ++ p ++ y` keeps `x`, replaces
that occurrence, and continues in `y` only. -/
theorem replaceAll_split {p v x y : List Char} (hp : p ≠ [])
    (h : occursBefore p x (p ++ y) = false) :
    replaceAll p v (x ++ p ++ y) = x ++ v ++ replaceAll p v y := by
  induction x with
  | nil => simpa using replaceAll_head (v := v) (y := y) hp
  | cons c cs ih =>
    simp only [occursBefore, Bool.or_eq_false_iff] at h
    simp only [List.cons_append, List.append_assoc] at *
    rw [replaceAll]
    rw [dif_neg (by
      intro hcon
      exact absurd hcon.2 (by simp [h.1]))]
    rw [ih h.2]

/-- Establishing `occursBefore … = false`: occurrences fitting inside `x` are
excluded by `hasSub`, short trailing suffixes by the supplied condition. -/
theorem occursBefore_eq_false {p x tail : List Char}
    (h1 : hasSub p x = false)
    (h2 : ∀ s, s <:+ x → s ≠ [] → s.length < p.length → p.isPrefixOf (s ++ tail) = false) :
    occursBefore p x tail = false := by
  induction x with
  | nil => simp [occursBefore]
  | cons c cs ih =>
    simp only [hasSub, Bool.or_eq_false_iff] at h1
    simp only [occursBefore, Bool.or_eq_false_iff]
    refine ⟨?_, ih h1.2 (fun s hs => h2 s (hs.trans (List.suffix_cons c cs)))⟩
    by_cases hl : p.length ≤ (c :: cs).length
    · rw [show c :: (cs ++ tail) = (c :: cs) ++ tail from rfl]
      rw [isPrefixOf_append_of_le _ hl]
      exact h1.1
    · exact h2 (c :: cs) (List.suffix_refl _) (by simp) (by omega)

/-! ## Structural lemmas for the reference masker -/

theorem takeRun_eq (p : Char → Bool) (s : List Char) :
    s = (takeRun p s).1 ++ (takeRun p s).2 := by
  induction s with
  | nil => simp [takeRun]
  | cons c cs ih =>
    simp only [takeRun]
    split
    · simpa using ih
    · simp

theorem takeRun_split {p : Char → Bool} {s a b : List Char}
    (h : takeRun p s = (a, b)) : s = a ++ b := by
  have := takeRun_eq p s
  rw [h] at this
  exact this

theorem suffix_of_suffix_append {s x m : List Char} (h : s <:+ x ++ m)
    (hl : s.length ≤ m.length) : s <:+ m := by
  have he := List.suffix_iff_eq_drop.mp h
  have h2 : s = m.drop (m.length - s.length) := by
    conv_lhs => rw [he]
    rw [show (x ++ m).length - s.length = x.length + (m.length - s.length) by
      simp [List.length_append]; omega]
    rw [List.drop_append]
  exact List.suffix_iff_eq_drop.mpr h2

theorem matchWordCI_eq : ∀ {ps s w r : List Char}, matchWordCI ps s = some (w, r) →
    s = w ++ r ∧ w.length = ps.length ∧ ∀ c ∈ w, ∃ q ∈ ps, c.toLower = q := by
  intro ps
  induction ps with
  | nil =>
    intro s w r h
    simp [matchWordCI] at h
    obtain ⟨hw, hr⟩ := h
    subst hw
    subst hr
    simp
  | cons p pt ih =>
    intro s w r h
    cases s with
    | nil => simp [matchWordCI] at h
    | cons c cs =>
      simp only [matchWordCI] at h
      split at h
      · rename_i hc
        cases hm : matchWordCI pt cs with
        | none => rw [hm] at h; simp at h
        | some q =>
          rw [hm] at h
          simp at h
          obtain ⟨hw, hr⟩ := h
          obtain ⟨he, hlen, hch⟩ := ih (w := q.1) (r := q.2) (by rw [hm])
          subst hw
          refine ⟨by simp [he, hr], by simp [hlen], ?_⟩
          intro d hd
          simp at hd
          rcases hd with hd | hd
          · exact ⟨p, by simp, by rw [hd, hc]⟩
          · obtain ⟨q2, hq2, hq3⟩ := hch d hd
            exact ⟨q2, by simp [hq2], hq3⟩
      · simp at h

/-- Shape of a successful references-heading match: the text splits as
`m ++ r`, and `m` ends with at least nine characters none of which is `#`
(the case-insensitive letters of `Reference` and the optional trailing s). -/
theorem matchRefAt_shape {s m r : List Char} (h : matchRefAt s = some (m, r)) :
    s = m ++ r ∧ ∃ a tl, m = a ++ tl ∧ 9 ≤ tl.length ∧ ∀ c ∈ tl, c ≠ '#' := by
  rw [matchRefAt] at h
  split at h
  · simp at h
  · rename_i h1 hs1 s1 hK
    split at h
    · simp at h
    · rename_i w1 ws s2 hL
      have hKs := takeRun_split hK
      have hLs := takeRun_split hL
      split at h
      · simp at h
      · rename_i w hw
        have ⟨he, hlen, hch⟩ := matchWordCI_eq hw
        have hq1 : ∀ c ∈ w, c ≠ '#' := by
          intro c hc hcon
          obtain ⟨p2, hp2, hlow⟩ := hch c hc
          subst hcon
          rw [show ('#'.toLower = '#') from by decide] at hlow
          subst hlow
          revert hp2
          decide
        have hw9 : w.length = 9 := by rw [hlen]; decide
        simp at h
        obtain ⟨hmm, hrr⟩ := h
        subst hmm
        subst hrr
        constructor
        · rw [hKs, hLs, he]
          simp
        · exact ⟨(h1 :: hs1) ++ (w1 :: ws), w, by simp, by omega, hq1⟩
      · rename_i w c2 s4 hw
        have ⟨he, hlen, hch⟩ := matchWordCI_eq hw
        have hq1 : ∀ c ∈ w, c ≠ '#' := by
          intro c hc hcon
          obtain ⟨p2, hp2, hlow⟩ := hch c hc
          subst hcon
          rw [show ('#'.toLower = '#') from by decide] at hlow
          subst hlow
          revert hp2
          decide
        have hw9 : w.length = 9 := by rw [hlen]; decide
        split at h
        · rename_i hlow2
          simp at h
          obtain ⟨hmm, hrr⟩ := h
          subst hmm
          subst hrr
          constructor
          · rw [hKs, hLs, he]
            simp
          · refine ⟨(h1 :: hs1) ++ (w1 :: ws), w ++ [c2], by simp, by simp [hw9], ?_⟩
            intro c hc
            simp at hc
            rcases hc with hc | hc
            · exact hq1 c hc
            · subst hc
              intro hcon
              subst hcon
              rw [show ('#'.toLower = '#') from by decide] at hlow2
              exact absurd hlow2 (by decide)
        · simp at h
          obtain ⟨hmm, hrr⟩ := h
          subst hmm
          subst hrr
          constructor
          · rw [hKs, hLs, he]
            simp
          · exact ⟨(h1 :: hs1) ++ (w1 :: ws), w, by simp, by omega, hq1⟩

theorem searchRef_eq {t pre m r : List Char}
    (h : searchRef t = some (pre, m, r)) : t = pre ++ m ++ r := by
  induction t generalizing pre with
  | nil => simp [searchRef] at h
  | cons c s ih =>
    simp only [searchRef] at h
    cases hm : matchRefAt (c :: s) with
    | some q =>
      obtain ⟨m2, r2⟩ := q
      rw [hm] at h
      simp at h
      obtain ⟨h1, h2, h3⟩ := h
      subst h1
      subst h2
      subst h3
      simpa using (matchRefAt_shape hm).1
    | none =>
      rw [hm] at h
      cases hs : searchRef s with
      | none => rw [hs] at h; simp at h
      | some q =>
        obtain ⟨p2, m2, r2⟩ := q
        rw [hs] at h
        simp at h
        obtain ⟨h1, h2, h3⟩ := h
        subst h1
        subst h2
        subst h3
        have := ih hs
        simp [this]

theorem searchRef_of_all_none {t : List Char}
    (h : ∀ i < t.length, matchRefAt (t.drop i) = none) : searchRef t = none := by
  induction t with
  | nil => simp [searchRef]
  | cons c s ih =>
    simp only [searchRef]
    rw [show matchRefAt (c :: s) = none from h 0 (by simp)]
    rw [ih (fun i hi => h (i + 1) (by simpa using hi))]
    rfl

theorem searchSecIdx_eq {r body post : List Char}
    (h : searchSecIdx r = some (body, post)) :
    r = body ++ post ∧ secMatchAt post = true ∧
      ∀ i < body.length, secMatchAt (r.drop i) = false := by
  induction r generalizing body with
  | nil => simp [searchSecIdx] at h
  | cons c s ih =>
    simp only [searchSecIdx] at h
    split at h
    · rename_i hsec
      simp at h
      obtain ⟨h1, h2⟩ := h
      subst h1
      subst h2
      exact ⟨by simp, hsec, by simp⟩
    · rename_i hsec
      cases hs : searchSecIdx s with
      | none => rw [hs] at h; simp at h
      | some q =>
        obtain ⟨b2, p2⟩ := q
        rw [hs] at h
        simp at h
        obtain ⟨h1, h2⟩ := h
        subst h1
        subst h2
        obtain ⟨e1, e2, e3⟩ := ih hs
        refine ⟨by simp [e1], e2, ?_⟩
        intro i hi
        cases i with
        | zero => simpa using hsec
        | succ j => simpa using e3 j (by simpa using hi)

theorem searchSecIdx_none {r : List Char} (h : searchSecIdx r = none) :
    ∀ i, secMatchAt (r.drop i) = false := by
  induction r with
  | nil =>
    intro i
    simp only [List.drop_nil]
    decide
  | cons c s ih =>
    simp only [searchSecIdx] at h
    split at h
    · simp at h
    · rename_i hsec
      have hs : searchSecIdx s = none := by
        cases hs2 : searchSecIdx s with
        | none => rfl
        | some q => rw [hs2] at h; simp at h
      intro i
      cases i with
      | zero => simpa using hsec
      | succ j => simpa using ih hs j

theorem searchRef_shape {t pre m r : List Char}
    (h : searchRef t = some (pre, m, r)) :
    ∃ a tl, m = a ++ tl ∧ 9 ≤ tl.length ∧ ∀ c ∈ tl, c ≠ '#' := by
  induction t generalizing pre r with
  | nil => simp [searchRef] at h
  | cons c s ih =>
    simp only [searchRef] at h
    cases hm : matchRefAt (c :: s) with
    | some q =>
      obtain ⟨m2, r2⟩ := q
      rw [hm] at h
      simp at h
      obtain ⟨h1, h2, h3⟩ := h
      subst h2
      exact (matchRefAt_shape hm).2
    | none =>
      rw [hm] at h
      cases hs : searchRef s with
      | none => rw [hs] at h; simp at h
      | some q =>
        obtain ⟨p2, m2, r2⟩ := q
        rw [hs] at h
        simp at h
        obtain ⟨h1, h2, h3⟩ := h
        subst h2
        subst h3
        exact ih hs

/-- No occurrence of `#REF#` can start inside `pre ++ m` when `#REF#` does not
occur in the document and `m` ends in at least nine non-`#` characters: a short
trailing suffix of the heading match would have to start with `#`. -/
theorem refKey_occursBefore_false {t pre m r tail : List Char}
    (h : hasSub refKey t = false) (ht : t = pre ++ m ++ r)
    (hshape : ∃ a tl, m = a ++ tl ∧ 9 ≤ tl.length ∧ ∀ c ∈ tl, c ≠ '#') :
    occursBefore refKey (pre ++ m) tail = false := by
  obtain ⟨a, tl, hm, htl9, htlh⟩ := hshape
  apply occursBefore_eq_false
  · cases hcc : hasSub refKey (pre ++ m) with
    | false => rfl
    | true =>
      have hinf : (pre ++ m) <+: t := by
        rw [ht]
        exact ⟨r, by simp⟩
      have := hasSub_of_infix hcc hinf.isInfix
      rw [h] at this
      simp at this
  · intro sfx hsfx hne hlen
    have hrk5 : refKey.length = 5 := by decide
    have hsfx2 : sfx <:+ tl := by
      apply suffix_of_suffix_append (x := pre ++ a)
      · have hpm : pre ++ m = (pre ++ a) ++ tl := by rw [hm]; simp
        rwa [hpm] at hsfx
      · omega
    cases sfx with
    | nil => exact absurd rfl hne
    | cons c0 sfx2 =>
      have hc0 : c0 ∈ tl := hsfx2.mem (by simp)
      have hc0ne : c0 ≠ '#' := htlh c0 hc0
      rw [show refKey = '#' :: ('R' :: 'E' :: 'F' :: '#' :: []) from by decide]
      simp only [List.cons_append, List.isPrefixOf]
      simp [Ne.symm hc0ne]

/-- C5 (amended): for every document `t` in which the placeholder token
`#REF#` does not occur as a substring, applying the reference masker and then
the reference unmasker with the produced mask map restores `t` exactly. -/
theorem C5_ref_mask_roundtrip (t : List Char) (h : hasSub refKey t = false) :
    unmaskRef (maskRef t).1 (maskRef t).2 = t := by
  rw [maskRef]
  cases hsr : searchRef t with
  | none => simp [unmaskRef]
  | some q =>
    obtain ⟨pre, m, rest⟩ := q
    dsimp only
    have ht := searchRef_eq hsr
    have hshape := searchRef_shape hsr
    have hrefne : refKey ≠ [] := by decide
    cases hsec : searchSecIdx rest with
    | some q2 =>
      obtain ⟨body, post⟩ := q2
      obtain ⟨e1, e2, e3⟩ := searchSecIdx_eq hsec
      dsimp only
      simp only [unmaskRef, List.foldl]
      have hx : occursBefore refKey (pre ++ m) (refKey ++ post) = false :=
        refKey_occursBefore_false h ht hshape
      rw [show pre ++ m ++ refKey ++ post = (pre ++ m) ++ refKey ++ post by simp]
      rw [replaceAll_split hrefne hx]
      have hpost : replaceAll refKey body post = post := by
        apply replaceAll_of_not_hasSub
        cases hcc : hasSub refKey post with
        | false => rfl
        | true =>
          have hinf2 : post <:+: t := by
            rw [ht, e1]
            exact ⟨pre ++ m ++ body, [], by simp⟩
          have := hasSub_of_infix hcc hinf2
          rw [h] at this
          simp at this
      rw [hpost, ht, e1]
      simp
    | none =>
      dsimp only
      simp only [unmaskRef, List.foldl]
      have hx : occursBefore refKey (pre ++ m) (refKey ++ []) = false :=
        refKey_occursBefore_false h ht hshape
      rw [show pre ++ m ++ refKey = (pre ++ m) ++ refKey ++ [] by simp]
      rw [replaceAll_split hrefne hx]
      rw [show replaceAll refKey rest [] = [] from by rw [replaceAll]]
      rw [ht]
      simp

/-- C4 (amended): when the reference masker finds a case-insensitive
`References` heading, the masked section body runs from immediately after the
heading match to the start of the next occurrence of the section pattern
`#+\s+\w+` — which may occur anywhere, not only at the start of a line — or to
end of document; exactly that body (not the heading) is replaced by the single
placeholder `#REF#`, and the removed body is stored under that token's key. -/
theorem C4_ref_section_extent {t pre m rest : List Char}
    (h : searchRef t = some (pre, m, rest)) :
    ∃ body post, rest = body ++ post ∧
      maskRef t = (pre ++ m ++ refKey ++ post, [(refKey, body)]) ∧
      (∀ i < body.length, secMatchAt (rest.drop i) = false) ∧
      (post = [] ∨ secMatchAt post = true) ∧
      t = pre ++ m ++ rest := by
  rw [maskRef, h]
  dsimp only
  cases hsec : searchSecIdx rest with
  | some q =>
    obtain ⟨body, post⟩ := q
    dsimp only
    obtain ⟨e1, e2, e3⟩ := searchSecIdx_eq hsec
    exact ⟨body, post, e1, rfl, e3, Or.inr e2, searchRef_eq h⟩
  | none =>
    dsimp only
    refine ⟨rest, [], by simp, by simp, ?_, Or.inl rfl, searchRef_eq h⟩
    intro i _
    exact searchSecIdx_none hsec i

/-- C8 (amended): for every input in which the heading pattern
`#+\s+Reference` (case-insensitive, optional trailing s) matches at no
position — the pattern is not anchored to line starts — the reference masker
returns the input unchanged together with an empty mask map. -/
theorem C8_no_ref_heading_noop (t : List Char)
    (h : ∀ i < t.length, matchRefAt (t.drop i) = none) : maskRef t = (t, []) := by
  rw [maskRef, searchRef_of_all_none h]

/-! ## Lemmas for the heading rewriter -/

theorem takeRun_append {p : Char → Bool} {x y : List Char}
    (hx : ∀ c ∈ x, p c = true) (hy : ∀ c, y.head? = some c → p c = false) :
    takeRun p (x ++ y) = (x, y) := by
  induction x with
  | nil =>
    cases y with
    | nil => rfl
    | cons c cs =>
      simp only [List.nil_append, takeRun]
      rw [hy c rfl]
      simp
  | cons a xs ih =>
    simp only [List.cons_append, takeRun]
    rw [hx a (by simp)]
    simp only [if_true, List.append_eq]
    rw [ih (fun c hc => hx c (by simp [hc]))]

theorem brkNlSplit_direct {g r : List Char} (hg : '\n' ∉ g) :
    brkNlSplit (g ++ '\n' :: r) = some (g, r) := by
  induction g with
  | nil => simp [brkNlSplit]
  | cons c cs ih =>
    simp only [List.mem_cons, not_or] at hg
    simp only [List.cons_append, brkNlSplit, List.append_eq]
    rw [if_neg (by exact fun hc => hg.1 hc.symm)]
    rw [ih hg.2]
    rfl

theorem tryTitle_direct {C R : List Char} (hC : C ≠ [])
    (hCh : ∀ c, C.head? = some c → c ≠ '\n') (hCn : '\n' ∉ C) :
    tryTitle (C ++ '\n' :: R) = some (C, R) := by
  cases C with
  | nil => exact absurd rfl hC
  | cons c0 cs =>
    simp only [tryTitle, List.cons_append]
    rw [if_neg (hCh c0 rfl)]
    have := brkNlSplit_direct (g := c0 :: cs) (r := R) hCn
    simpa using this

theorem trySplits_direct {W C R : List Char} (hW : W ≠ []) (hC : C ≠ [])
    (hCh : ∀ c, C.head? = some c → c ≠ '\n') (hCn : '\n' ∉ C) :
    trySplits W (C ++ '\n' :: R) = some (C, R) := by
  rw [trySplits]
  rw [tryTitle_direct hC hCh hCn]
  simp [hW]

/-- A buffer that decomposes as numeric prefix, `#` run, whitespace run,
single-line title and newline is matched by the heading pattern exactly
there. -/
theorem headMatch_direct {P H W C R : List Char}
    (hP : ∀ c ∈ P, (isDigitCh c || c = '.') = true)
    (hH : H ≠ []) (hHall : ∀ c ∈ H, c = '#')
    (hW : W ≠ []) (hWall : ∀ c ∈ W, isWs c = true)
    (hC : C ≠ []) (hCh : ∀ c, C.head? = some c → isWs c = false)
    (hCn : '\n' ∉ C) :
    headMatch (P ++ (H ++ (W ++ (C ++ '\n' :: R)))) = some (H.length, C, R) := by
  cases H with
  | nil => exact absurd rfl hH
  | cons h1 hs =>
    cases W with
    | nil => exact absurd rfl hW
    | cons w1 ws =>
      rw [headMatch]
      rw [takeRun_append hP (by
        intro c hc
        simp at hc
        rw [hHall c (by simp [hc])]
        decide)]
      dsimp only
      rw [takeRun_append (x := h1 :: hs) (y := (w1 :: ws) ++ (C ++ '\n' :: R)) (by
        intro c hc
        simp [hHall c hc]) (by
        intro c hc
        simp at hc
        subst hc
        have hws := hWall w1 (by simp)
        cases hcc : decide (w1 = '#') with
        | false => rfl
        | true =>
          have hcc2 : w1 = '#' := of_decide_eq_true hcc
          rw [hcc2] at hws
          exact absurd hws (by decide))]
      dsimp only
      rw [takeRun_append (x := w1 :: ws) (y := C ++ '\n' :: R) (by
        intro c hc
        exact hWall c hc) (by
        intro c hc
        cases C with
        | nil => exact absurd rfl hC
        | cons c0 cs =>
          simp at hc
          subst hc
          exact hCh c0 rfl)]
      dsimp only
      rw [trySplits_direct (by simp) hC (by
        intro c hc
        have := hCh c hc
        intro hcon
        rw [hcon] at this
        exact absurd this (by decide)) hCn]

/-! ## Digit and placeholder-key lemmas -/

/-- Inverse of `digitChar` on decimal digits. -/
def digitVal (c : Char) : Nat :=
  if c = '0' then 0 else if c = '1' then 1 else if c = '2' then 2
  else if c = '3' then 3 else if c = '4' then 4 else if c = '5' then 5
  else if c = '6' then 6 else if c = '7' then 7 else if c = '8' then 8 else 9

theorem digitVal_digitChar {n : Nat} (h : n < 10) : digitVal (digitChar n) = n := by
  interval_cases n <;> rfl

theorem digitChar_inj {a b : Nat} (ha : a < 10) (hb : b < 10)
    (h : digitChar a = digitChar b) : a = b := by
  have := congrArg digitVal h
  rwa [digitVal_digitChar ha, digitVal_digitChar hb] at this

theorem digitChar_ne_E (n : Nat) : digitChar n ≠ 'E' := by
  unfold digitChar
  repeat' split
  all_goals decide

theorem digitChar_ne_Q (n : Nat) : digitChar n ≠ 'Q' := by
  unfold digitChar
  repeat' split
  all_goals decide

theorem digitChar_ne_zero {n : Nat} (h1 : 1 ≤ n) (h2 : n < 10) : digitChar n ≠ '0' := by
  intro hc
  have h3 : digitChar n = digitChar 0 := by rw [hc]; rfl
  have := digitChar_inj h2 (by omega) h3
  omega

theorem natToDigits_ne_nil (n : Nat) : natToDigits n ≠ [] := by
  rw [natToDigits]
  split <;> simp

theorem natToDigits_small {n : Nat} (h : n < 10) : natToDigits n = [digitChar n] := by
  rw [natToDigits, if_pos h]

theorem natToDigits_step {n : Nat} (h : ¬n < 10) :
    natToDigits n = natToDigits (n / 10) ++ [digitChar (n % 10)] := by
  conv_lhs => rw [natToDigits]
  rw [if_neg h]

/-- Canonical three-digit padded form for counters up to 999. -/
theorem pad3_canonical {n : Nat} (h : n ≤ 999) :
    pad3 (natToDigits n) =
      [digitChar (n / 100), digitChar (n / 10 % 10), digitChar (n % 10)] := by
  by_cases h10 : n < 10
  · rw [natToDigits_small h10]
    rw [pad3]
    have e1 : n / 100 = 0 := Nat.div_eq_of_lt (by omega)
    have e2 : n / 10 = 0 := Nat.div_eq_of_lt (by omega)
    have e3 : n % 10 = n := Nat.mod_eq_of_lt h10
    rw [e1, e2, e3]
    simp [List.replicate]
    rfl
  · by_cases h100 : n < 100
    · rw [natToDigits_step h10, natToDigits_small (by omega : n / 10 < 10)]
      rw [pad3]
      have e1 : n / 100 = 0 := Nat.div_eq_of_lt (by omega)
      have e2 : n / 10 % 10 = n / 10 := Nat.mod_eq_of_lt (by omega)
      rw [e1, e2]
      simp [List.replicate]
      rfl
    · rw [natToDigits_step h10, natToDigits_step (by omega : ¬n / 10 < 10),
        natToDigits_small (by omega : n / 10 / 10 < 10)]
      rw [pad3]
      have e1 : n / 10 / 10 = n / 100 := by
        rw [Nat.div_div_eq_div_mul]
      have e2 : n / 10 % 10 = n / 10 % 10 := rfl
      rw [e1]
      simp [List.replicate]

theorem eqKeyL_canonical {n : Nat} (h : n ≤ 999) :
    eqKeyL n = 'E' :: 'Q' :: digitChar (n / 100) :: digitChar (n / 10 % 10) ::
      digitChar (n % 10) :: [] := by
  rw [eqKeyL, pad3_canonical h]

theorem eqKeyL_length {n : Nat} (h : n ≤ 999) : (eqKeyL n).length = 5 := by
  rw [eqKeyL_canonical h]
  rfl

theorem eqKeyL_inj_le {a b : Nat} (ha : a ≤ 999) (hb : b ≤ 999)
    (h : eqKeyL a = eqKeyL b) : a = b := by
  rw [eqKeyL_canonical ha, eqKeyL_canonical hb] at h
  simp only [List.cons.injEq, and_true, true_and] at h
  obtain ⟨h1, h2, h3⟩ := h
  have e1 := digitChar_inj (by omega : a / 100 < 10) (by omega : b / 100 < 10) h1
  have e2 := digitChar_inj (by omega : a / 10 % 10 < 10) (by omega : b / 10 % 10 < 10) h2
  have e3 := digitChar_inj (by omega : a % 10 < 10) (by omega : b % 10 < 10) h3
  omega

theorem natToDigits_head_ne_zero : ∀ {n : Nat}, 10 ≤ n →
    ∀ {c : Char} {ds : List Char}, natToDigits n = c :: ds → c ≠ '0' := by
  intro n
  induction n using Nat.strong_induction_on with
  | _ n ih =>
    intro hn c ds hc
    rw [natToDigits_step (by omega)] at hc
    by_cases h10 : n / 10 < 10
    · rw [natToDigits_small h10] at hc
      simp at hc
      rw [← hc.1]
      exact digitChar_ne_zero (by omega) h10
    · cases hnd : natToDigits (n / 10) with
      | nil => exact absurd hnd (natToDigits_ne_nil _)
      | cons d2 ds2 =>
        rw [hnd] at hc
        simp at hc
        have := ih (n / 10) (Nat.div_lt_self (by omega) (by omega)) (by omega) hnd
        rw [← hc.1]
        exact this

theorem natToDigits_inj : ∀ {a b : Nat}, natToDigits a = natToDigits b → a = b := by
  intro a
  induction a using Nat.strong_induction_on with
  | _ a ih =>
    intro b h
    by_cases ha : a < 10
    · by_cases hb : b < 10
      · rw [natToDigits_small ha, natToDigits_small hb] at h
        simp at h
        exact digitChar_inj ha hb h
      · rw [natToDigits_small ha, natToDigits_step hb] at h
        cases hnd : natToDigits (b / 10) with
        | nil => exact absurd hnd (natToDigits_ne_nil _)
        | cons d ds =>
          rw [hnd] at h
          simp at h
    · by_cases hb : b < 10
      · rw [natToDigits_step ha, natToDigits_small hb] at h
        cases hnd : natToDigits (a / 10) with
        | nil => exact absurd hnd (natToDigits_ne_nil _)
        | cons d ds =>
          rw [hnd] at h
          simp at h
      · rw [natToDigits_step ha, natToDigits_step hb] at h
        have hsp := List.append_inj' h (by simp)
        have e1 := ih (a / 10) (Nat.div_lt_self (by omega) (by omega)) hsp.1
        have e2 : a % 10 = b % 10 := by
          have h2 := hsp.2
          simp at h2
          exact digitChar_inj (by omega) (by omega) h2
        omega

theorem pad3_strict {x y : List Char} (h : pad3 x = pad3 y)
    (hlt : x.length < y.length) : ∃ ys, y = '0' :: ys := by
  have hlen := congrArg List.length h
  simp only [pad3, List.length_append, List.length_replicate] at hlen
  have hp : 3 - x.length = (3 - y.length) + (y.length - x.length) := by omega
  rw [pad3, pad3, hp, List.replicate_add, List.append_assoc] at h
  have h2 := List.append_cancel_left h
  cases hk : y.length - x.length with
  | zero => omega
  | succ j =>
    rw [hk, List.replicate_succ] at h2
    exact ⟨_, h2.symm⟩

theorem eqKeyL_inj : ∀ {a b : Nat}, eqKeyL a = eqKeyL b → a = b := by
  intro a b h
  simp only [eqKeyL, List.cons.injEq, true_and] at h
  have hxy : natToDigits a = natToDigits b := by
    rcases Nat.lt_trichotomy (natToDigits a).length (natToDigits b).length with hl | hl | hl
    · obtain ⟨ys, hys⟩ := pad3_strict h hl
      have hb10 : 10 ≤ b := by
        by_contra hb
        rw [natToDigits_small (show b < 10 by omega)] at hl
        simp at hl
        exact absurd hl (natToDigits_ne_nil a)
      exact absurd rfl (natToDigits_head_ne_zero hb10 hys)
    · rw [pad3, pad3, hl] at h
      exact List.append_cancel_left h
    · obtain ⟨ys, hys⟩ := pad3_strict h.symm hl
      have ha10 : 10 ≤ a := by
        by_contra hb
        rw [natToDigits_small (show a < 10 by omega)] at hl
        simp at hl
        exact absurd hl (natToDigits_ne_nil b)
      exact absurd rfl (natToDigits_head_ne_zero ha10 hys)
  exact natToDigits_inj hxy

/-! ## Structural lemmas for the math masker -/

theorem closeDollars_suffix (r : List Char) : closeDollars r <:+ r := by
  cases r with
  | nil => simp [closeDollars]
  | cons c cs =>
    simp only [closeDollars]
    split
    · exact ⟨[c], rfl⟩
    · exact List.suffix_refl _

theorem tryMathMatch_parts {s grp rest : List Char}
    (h : tryMathMatch s = some (grp, rest)) : grp <:+: s ∧ rest <:+ s := by
  cases s with
  | nil => simp [tryMathMatch] at h
  | cons c cs =>
    simp only [tryMathMatch] at h
    split at h
    · cases hb : breakDollar cs with
      | some q =>
        rw [hb] at h
        simp at h
        obtain ⟨h1, h2⟩ := h
        have he := breakDollar_eq (p := q.1) (r := q.2) (by rw [hb])
        subst h1
        constructor
        · exact ⟨[c], '$' :: q.2, by rw [he]; simp⟩
        · rw [← h2]
          have h3 := closeDollars_suffix q.2
          have h4 : q.2 <:+ cs := ⟨q.1 ++ ['$'], by rw [he]; simp⟩
          exact (h3.trans h4).trans (List.suffix_cons c cs)
      | none =>
        rw [hb] at h
        simp at h
        obtain ⟨h1, h2⟩ := h
        subst h1
        subst h2
        exact ⟨by simp, List.suffix_cons c cs⟩
    · cases hb : breakDollar (c :: cs) with
      | some q =>
        rw [hb] at h
        simp at h
        obtain ⟨h1, h2⟩ := h
        have he := breakDollar_eq (p := q.1) (r := q.2) (by rw [hb])
        subst h1
        constructor
        · exact ⟨[], '$' :: q.2, by rw [he]; simp⟩
        · rw [← h2]
          have h3 := closeDollars_suffix q.2
          have h4 : q.2 <:+ c :: cs := ⟨q.1 ++ ['$'], by rw [he]; simp⟩
          exact h3.trans h4
      | none => rw [hb] at h; simp at h

theorem hasSub_false_of_infix {p s t : List Char} (ht : hasSub p t = false)
    (hinf : s <:+: t) : hasSub p s = false := by
  cases hcc : hasSub p s with
  | false => rfl
  | true =>
    have := hasSub_of_infix hcc hinf
    rw [ht] at this
    simp at this

theorem maskMathAux_head {t : List Char} {k : Nat}
    (h : ((maskMathAux t k).1).head? = some 'Q') : t.head? = some 'Q' := by
  cases t with
  | nil => rw [maskMathAux] at h; simp at h
  | cons c cs =>
    rw [maskMathAux] at h
    split at h
    · split at h
      · rename_i grp rest hm
        rw [eqKeyL] at h
        simp at h
      · simp at h
        simp [h]
    · simp at h
      simp [h]

theorem hasSub_EQ_cons_ne {ps l : List Char} {c p0 : Char} (h : c ≠ p0) :
    hasSub (p0 :: ps) (c :: l) = hasSub (p0 :: ps) l := by
  simp only [hasSub, List.isPrefixOf]
  rw [show (p0 == c) = false from beq_eq_false_iff_ne.mpr (Ne.symm h)]
  simp

theorem prefixEQ_head {ps m : List Char} {q : Char}
    (h : (q :: ps).isPrefixOf m = true) : m.head? = some q := by
  cases m with
  | nil => simp [List.isPrefixOf] at h
  | cons b bs =>
    simp only [List.isPrefixOf, Bool.and_eq_true, beq_iff_eq] at h
    simp [h.1]

theorem nl2sp_eq_E {c : Char} (h : nl2sp c = 'E') : c = 'E' := by
  by_cases hn : c = '\n'
  · rw [hn] at h; simp [nl2sp] at h
  · simpa [nl2sp, hn] using h

theorem nl2sp_eq_Q {c : Char} (h : nl2sp c = 'Q') : c = 'Q' := by
  by_cases hn : c = '\n'
  · rw [hn] at h; simp [nl2sp] at h
  · simpa [nl2sp, hn] using h

theorem hasSub_EQ_map_nl2sp {g : List Char} (h : hasSub ['E', 'Q'] g = false) :
    hasSub ['E', 'Q'] (g.map nl2sp) = false := by
  induction g with
  | nil => simp [hasSub, List.isPrefixOf]
  | cons c cs ih =>
    simp only [hasSub, Bool.or_eq_false_iff] at h
    obtain ⟨hA, hB⟩ := h
    simp only [List.map_cons, hasSub, Bool.or_eq_false_iff]
    refine ⟨?_, ih hB⟩
    cases hcc : ((['E', 'Q'] : List Char).isPrefixOf (nl2sp c :: cs.map nl2sp)) with
    | false => rfl
    | true =>
      exfalso
      simp only [List.isPrefixOf, Bool.and_eq_true, beq_iff_eq] at hcc
      obtain ⟨h1, h2⟩ := hcc
      have hc : c = 'E' := nl2sp_eq_E h1.symm
      have hq := prefixEQ_head h2
      cases cs with
      | nil => simp at hq
      | cons b bs =>
        simp at hq
        have hb : b = 'Q' := nl2sp_eq_Q hq
        subst hc
        subst hb
        simp [List.isPrefixOf] at hA

theorem hasSub_EQ_append {x y : List Char} (hx : hasSub ['E', 'Q'] x = false)
    (hy : hasSub ['E', 'Q'] y = false)
    (hcross : ¬(x.getLast? = some 'E' ∧ y.head? = some 'Q')) :
    hasSub ['E', 'Q'] (x ++ y) = false := by
  induction x with
  | nil => simpa using hy
  | cons c x2 ih =>
    simp only [hasSub, Bool.or_eq_false_iff] at hx
    obtain ⟨hA, hB⟩ := hx
    simp only [List.cons_append, hasSub, Bool.or_eq_false_iff]
    constructor
    · cases hcc : ((['E', 'Q'] : List Char).isPrefixOf (c :: (x2 ++ y))) with
      | false => rfl
      | true =>
        exfalso
        simp only [List.isPrefixOf, Bool.and_eq_true, beq_iff_eq] at hcc
        obtain ⟨h1, h2⟩ := hcc
        have hq := prefixEQ_head h2
        cases x2 with
        | nil =>
          simp at hq
          exact hcross ⟨by simp [← h1], hq⟩
        | cons b bs =>
          simp at hq
          subst hq
          rw [← h1] at hA
          simp [List.isPrefixOf] at hA
    · apply ih hB
      intro hcon
      apply hcross
      obtain ⟨hl, hh⟩ := hcon
      refine ⟨?_, hh⟩
      cases x2 with
      | nil => simp at hl
      | cons b bs => rw [List.getLast?_cons_cons]; exact hl

theorem mathTemplate_EQfree {g : List Char} (h : hasSub ['E', 'Q'] g = false) :
    hasSub ['E', 'Q'] (mathTemplate g) = false := by
  rw [mathTemplate]
  rw [hasSub_EQ_cons_ne (by decide)]
  rw [hasSub_EQ_cons_ne (by decide)]
  rw [hasSub_EQ_cons_ne (by decide)]
  apply hasSub_EQ_append (hasSub_EQ_map_nl2sp h) (by decide)
  intro hcon
  simp at hcon

theorem mathTemplate_head (g : List Char) : (mathTemplate g).head? = some '[' := rfl

theorem mathTemplate_getLast (g : List Char) : (mathTemplate g).getLast? = some ']' := by
  have he : mathTemplate g = ('[' :: '$' :: ' ' :: (g.map nl2sp ++ [' '])) ++ [']'] := by
    simp [mathTemplate]
  rw [he, List.getLast?_concat]

theorem replaceAll_push {key w m ds : List Char} {c : Char}
    (hk : key = 'E' :: 'Q' :: ds) (hc : ¬(c = 'E' ∧ m.head? = some 'Q')) :
    replaceAll key w (c :: m) = c :: replaceAll key w m := by
  rw [replaceAll]
  rw [dif_neg ?_]
  intro hcon
  obtain ⟨hne, hpre⟩ := hcon
  rw [hk] at hpre
  simp only [List.isPrefixOf, Bool.and_eq_true, beq_iff_eq] at hpre
  obtain ⟨h1, h2⟩ := hpre
  exact hc ⟨h1.symm, prefixEQ_head h2⟩

theorem replaceAll_head_preserve {key w m : List Char} (hw : w.head? = some '[')
    (hkey : key ≠ []) (h : (replaceAll key w m).head? = some 'Q') :
    m.head? = some 'Q' := by
  cases m with
  | nil => rw [replaceAll] at h; simp at h
  | cons c cs =>
    rw [replaceAll] at h
    split at h
    · cases w with
      | nil => simp at hw
      | cons w0 ws =>
        simp at hw
        simp at h
        rw [hw] at h
        simp at h
    · simp at h
      simp [h]

theorem unmaskFold_cons {d : List (List Char × List Char)} {c : Char} {m : List Char}
    (hd : ∀ kv ∈ d, (∃ ds, kv.1 = 'E' :: 'Q' :: ds) ∧ kv.2.head? = some '[')
    (hc : ¬(c = 'E' ∧ m.head? = some 'Q')) :
    List.foldl (fun acc kv => replaceAll kv.1 kv.2 acc) (c :: m) d =
      c :: List.foldl (fun acc kv => replaceAll kv.1 kv.2 acc) m d := by
  induction d generalizing m with
  | nil => rfl
  | cons kv d2 ih =>
    simp only [List.foldl_cons]
    obtain ⟨⟨ds, hk⟩, hv⟩ := hd kv (by simp)
    rw [replaceAll_push hk hc]
    apply ih (fun kv2 hkv2 => hd kv2 (by simp [hkv2]))
    intro hcon
    obtain ⟨hce, hh⟩ := hcon
    exact hc ⟨hce, replaceAll_head_preserve hv (by rw [hk]; simp) hh⟩

theorem unmaskFold_append {d : List (List Char × List Char)} {v m : List Char}
    (hd : ∀ kv ∈ d, (∃ ds, kv.1 = 'E' :: 'Q' :: ds) ∧ kv.2.head? = some '[')
    (hv : hasSub ['E', 'Q'] v = false)
    (hlast : v.getLast? ≠ some 'E') :
    List.foldl (fun acc kv => replaceAll kv.1 kv.2 acc) (v ++ m) d =
      v ++ List.foldl (fun acc kv => replaceAll kv.1 kv.2 acc) m d := by
  induction v with
  | nil => simp
  | cons v0 v2 ih =>
    simp only [List.cons_append]
    rw [unmaskFold_cons hd ?_]
    · rw [ih ?_ ?_]
      · simp only [hasSub, Bool.or_eq_false_iff] at hv
        exact hv.2
      · cases v2 with
        | nil => simp
        | cons b bs =>
          rw [← List.getLast?_cons_cons (a := v0)]
          exact hlast
    · intro hcon
      obtain ⟨he, hh⟩ := hcon
      cases v2 with
      | nil =>
        simp at hh
        apply hlast
        rw [he]
        rfl
      | cons b bs =>
        simp at hh
        subst he
        subst hh
        simp only [hasSub, Bool.or_eq_false_iff] at hv
        simp [List.isPrefixOf] at hv

theorem maskMathAux_nil (k : Nat) : maskMathAux [] k = ([], []) := by
  rw [maskMathAux]

theorem maskMathAux_cons_match {c : Char} {cs grp rest : List Char} (k : Nat)
    (hc : c = '$') (hm : tryMathMatch cs = some (grp, rest)) :
    maskMathAux (c :: cs) k =
      (eqKeyL k ++ (maskMathAux rest (k + 1)).1,
        (eqKeyL k, mathTemplate grp) :: (maskMathAux rest (k + 1)).2) := by
  subst hc
  rw [maskMathAux]
  rw [if_pos rfl]
  split
  · rename_i g2 r2 hm2
    rw [hm] at hm2
    simp at hm2
    rw [hm2.1, hm2.2]
  · rename_i hm2
    rw [hm] at hm2
    simp at hm2

theorem maskMathAux_cons_nomatch {c : Char} {cs : List Char} (k : Nat)
    (h : c ≠ '$' ∨ tryMathMatch cs = none) :
    maskMathAux (c :: cs) k = (c :: (maskMathAux cs k).1, (maskMathAux cs k).2) := by
  rw [maskMathAux]
  rcases h with h | h
  · rw [if_neg h]
  · by_cases hc : c = '$'
    · rw [if_pos hc]
      split
      · rename_i g2 r2 hm2
        rw [h] at hm2
        simp at hm2
      · rfl
    · rw [if_neg hc]

theorem renderMathAux_nil : renderMathAux [] = [] := by
  rw [renderMathAux]

theorem renderMathAux_cons_match {c : Char} {cs grp rest : List Char}
    (hc : c = '$') (hm : tryMathMatch cs = some (grp, rest)) :
    renderMathAux (c :: cs) = mathTemplate grp ++ renderMathAux rest := by
  subst hc
  rw [renderMathAux]
  rw [if_pos rfl]
  split
  · rename_i g2 r2 hm2
    rw [hm] at hm2
    simp at hm2
    rw [hm2.1, hm2.2]
  · rename_i hm2
    rw [hm] at hm2
    simp at hm2

theorem renderMathAux_cons_nomatch {c : Char} {cs : List Char}
    (h : c ≠ '$' ∨ tryMathMatch cs = none) :
    renderMathAux (c :: cs) = c :: renderMathAux cs := by
  rw [renderMathAux]
  rcases h with h | h
  · rw [if_neg h]
  · by_cases hc : c = '$'
    · rw [if_pos hc]
      split
      · rename_i g2 r2 hm2
        rw [h] at hm2
        simp at hm2
      · rfl
    · rw [if_neg hc]

theorem maskMathAux_dict_shape : ∀ (n : Nat) (t : List Char) (k : Nat), t.length ≤ n →
    ∀ kv ∈ (maskMathAux t k).2,
      (∃ ds, kv.1 = 'E' :: 'Q' :: ds) ∧ kv.2.head? = some '[' := by
  intro n
  induction n with
  | zero =>
    intro t k ht kv hkv
    have hnil : t = [] := List.length_eq_zero.mp (by omega)
    subst hnil
    rw [maskMathAux_nil] at hkv
    simp at hkv
  | succ n ih =>
    intro t k ht kv hkv
    cases t with
    | nil => rw [maskMathAux_nil] at hkv; simp at hkv
    | cons c cs =>
      by_cases hc : c = '$'
      · cases hm : tryMathMatch cs with
        | some q =>
          obtain ⟨grp, rest⟩ := q
          rw [maskMathAux_cons_match k hc hm] at hkv
          simp only [List.mem_cons] at hkv
          rcases hkv with hkv | hkv
          · subst hkv
            exact ⟨⟨_, by rw [eqKeyL]⟩, rfl⟩
          · have hr : rest.length ≤ n := by
              have := tryMathMatch_length hm
              simp at ht
              omega
            exact ih rest (k + 1) hr kv hkv
        | none =>
          rw [maskMathAux_cons_nomatch k (Or.inr hm)] at hkv
          exact ih cs k (by simp at ht; omega) kv hkv
      · rw [maskMathAux_cons_nomatch k (Or.inl hc)] at hkv
        exact ih cs k (by simp at ht; omega) kv hkv

theorem eqKeyL_isPrefixOf_false {i : Nat} {x : Char} {l : List Char} (h : x ≠ 'E') :
    ((eqKeyL i).isPrefixOf (x :: l)) = false := by
  rw [eqKeyL]
  simp only [List.isPrefixOf]
  rw [show (('E' : Char) == x) = false from beq_eq_false_iff_ne.mpr (Ne.symm h)]
  simp

theorem eqKeyL_not_prefix {i k : Nat} {m : List Char} (hi : i ≤ 999) (hk : k ≤ 999)
    (hik : i ≠ k) : (eqKeyL i).isPrefixOf (eqKeyL k ++ m) = false := by
  rw [isPrefixOf_append_of_le _ (by rw [eqKeyL_length hi, eqKeyL_length hk])]
  cases hpp : (eqKeyL i).isPrefixOf (eqKeyL k) with
  | false => rfl
  | true =>
    have hp : eqKeyL i <+: eqKeyL k := List.isPrefixOf_iff_prefix.mp hpp
    have he : eqKeyL i = eqKeyL k :=
      hp.eq_of_length (by rw [eqKeyL_length hi, eqKeyL_length hk])
    exact absurd (eqKeyL_inj he) hik

theorem maskMathAux_no_key : ∀ (n : Nat) (t : List Char) (k i : Nat), t.length ≤ n →
    hasSub ['E', 'Q'] t = false → 1 ≤ i → i < k →
    k + (maskMathAux t k).2.length ≤ 1000 →
    hasSub (eqKeyL i) ((maskMathAux t k).1) = false := by
  intro n
  induction n with
  | zero =>
    intro t k i ht _ _ _ _
    have hnil : t = [] := List.length_eq_zero.mp (by omega)
    subst hnil
    rw [maskMathAux_nil]
    rw [eqKeyL]
    simp [hasSub, List.isPrefixOf]
  | succ n ih =>
    intro t k i ht hEQ hi hik hb
    cases t with
    | nil =>
      rw [maskMathAux_nil]
      rw [eqKeyL]
      simp [hasSub, List.isPrefixOf]
    | cons c cs =>
      have hcs : hasSub ['E', 'Q'] cs = false :=
        hasSub_false_of_infix hEQ (List.suffix_cons c cs).isInfix
      by_cases hc : c = '$'
      · cases hm : tryMathMatch cs with
        | some q =>
          obtain ⟨grp, rest⟩ := q
          rw [maskMathAux_cons_match k hc hm] at hb ⊢
          dsimp only at hb ⊢
          simp only [List.length_cons] at hb
          have hk999 : k ≤ 999 := by omega
          have hi999 : i ≤ 999 := by omega
          have hrest : hasSub ['E', 'Q'] rest = false :=
            hasSub_false_of_infix hcs (tryMathMatch_parts hm).2.isInfix
          have hrlen : rest.length ≤ n := by
            have := tryMathMatch_length hm
            simp at ht
            omega
          have htail := ih rest (k + 1) i hrlen hrest hi (by omega) (by omega)
          have hfull := eqKeyL_not_prefix (m := (maskMathAux rest (k + 1)).1) hi999 hk999
            (by omega)
          rw [eqKeyL_canonical hk999] at hfull ⊢
          simp only [List.cons_append] at hfull ⊢
          simp only [hasSub, Bool.or_eq_false_iff]
          refine ⟨hfull, eqKeyL_isPrefixOf_false (by decide),
            eqKeyL_isPrefixOf_false (digitChar_ne_E _),
            eqKeyL_isPrefixOf_false (digitChar_ne_E _),
            eqKeyL_isPrefixOf_false (digitChar_ne_E _), htail⟩
        | none =>
          rw [maskMathAux_cons_nomatch k (Or.inr hm)] at hb ⊢
          dsimp only at hb ⊢
          subst hc
          simp only [hasSub, Bool.or_eq_false_iff]
          refine ⟨eqKeyL_isPrefixOf_false (by decide), ?_⟩
          exact ih cs k i (by simp at ht; omega) hcs hi hik hb
      · rw [maskMathAux_cons_nomatch k (Or.inl hc)] at hb ⊢
        dsimp only at hb ⊢
        simp only [hasSub, Bool.or_eq_false_iff]
        constructor
        · cases hpp : ((eqKeyL i).isPrefixOf (c :: (maskMathAux cs k).1)) with
          | false => rfl
          | true =>
            exfalso
            rw [eqKeyL] at hpp
            simp only [List.isPrefixOf, Bool.and_eq_true, beq_iff_eq] at hpp
            obtain ⟨h1, h2⟩ := hpp
            have hq := maskMathAux_head (prefixEQ_head h2)
            cases cs with
            | nil => simp at hq
            | cons b bs =>
              simp at hq
              subst hq
              rw [← h1] at hEQ
              simp [hasSub, List.isPrefixOf] at hEQ
        · exact ih cs k i (by simp at ht; omega) hcs hi hik hb

theorem maskMathAux_keys : ∀ (n : Nat) (t : List Char) (k : Nat), t.length ≤ n →
    ((maskMathAux t k).2).map Prod.fst =
      (List.range' k ((maskMathAux t k).2).length).map eqKeyL := by
  intro n
  induction n with
  | zero =>
    intro t k ht
    have hnil : t = [] := List.length_eq_zero.mp (by omega)
    subst hnil
    rw [maskMathAux_nil]
    simp
  | succ n ih =>
    intro t k ht
    cases t with
    | nil => rw [maskMathAux_nil]; simp
    | cons c cs =>
      by_cases hc : c = '$'
      · cases hm : tryMathMatch cs with
        | some q =>
          obtain ⟨grp, rest⟩ := q
          rw [maskMathAux_cons_match k hc hm]
          dsimp only
          simp only [List.length_cons, List.map_cons]
          rw [List.range'_succ]
          simp only [List.map_cons]
          have hrlen : rest.length ≤ n := by
            have := tryMathMatch_length hm
            simp at ht
            omega
          rw [ih rest (k + 1) hrlen]
        | none =>
          rw [maskMathAux_cons_nomatch k (Or.inr hm)]
          exact ih cs k (by simp at ht; omega)
      · rw [maskMathAux_cons_nomatch k (Or.inl hc)]
        exact ih cs k (by simp at ht; omega)

theorem mask_unmask_render_aux : ∀ (n : Nat) (t : List Char) (k : Nat), t.length ≤ n →
    hasSub ['E', 'Q'] t = false → 1 ≤ k → k + (maskMathAux t k).2.length ≤ 1000 →
    List.foldl (fun acc kv => replaceAll kv.1 kv.2 acc)
        (maskMathAux t k).1 (maskMathAux t k).2 = renderMathAux t := by
  intro n
  induction n with
  | zero =>
    intro t k ht _ _ _
    have hnil : t = [] := List.length_eq_zero.mp (by omega)
    subst hnil
    rw [maskMathAux_nil, renderMathAux_nil]
    rfl
  | succ n ih =>
    intro t k ht hEQ hk hb
    cases t with
    | nil =>
      rw [maskMathAux_nil, renderMathAux_nil]
      rfl
    | cons c cs =>
      have hcs : hasSub ['E', 'Q'] cs = false :=
        hasSub_false_of_infix hEQ (List.suffix_cons c cs).isInfix
      by_cases hc : c = '$'
      · cases hm : tryMathMatch cs with
        | some q =>
          obtain ⟨grp, rest⟩ := q
          rw [maskMathAux_cons_match k hc hm] at hb ⊢
          rw [renderMathAux_cons_match hc hm]
          dsimp only at hb ⊢
          simp only [List.length_cons] at hb
          have hgrp : hasSub ['E', 'Q'] grp = false :=
            hasSub_false_of_infix hcs (tryMathMatch_parts hm).1
          have hrest : hasSub ['E', 'Q'] rest = false :=
            hasSub_false_of_infix hcs (tryMathMatch_parts hm).2.isInfix
          have hrlen : rest.length ≤ n := by
            have := tryMathMatch_length hm
            simp at ht
            omega
          simp only [List.foldl_cons]
          have hkey_ne : eqKeyL k ≠ [] := by rw [eqKeyL]; simp
          rw [replaceAll_head hkey_ne]
          have hnokey : hasSub (eqKeyL k) ((maskMathAux rest (k + 1)).1) = false :=
            maskMathAux_no_key n rest (k + 1) k hrlen hrest (by omega) (by omega) (by omega)
          rw [replaceAll_of_not_hasSub hnokey]
          rw [unmaskFold_append (maskMathAux_dict_shape n rest (k + 1) hrlen)
            (mathTemplate_EQfree hgrp) (by rw [mathTemplate_getLast]; simp)]
          rw [ih rest (k + 1) hrlen hrest (by omega) (by omega)]
        | none =>
          rw [maskMathAux_cons_nomatch k (Or.inr hm)] at hb ⊢
          rw [renderMathAux_cons_nomatch (Or.inr hm)]
          dsimp only at hb ⊢
          subst hc
          rw [unmaskFold_cons (maskMathAux_dict_shape n cs k (by simp at ht; omega)) ?_]
          · rw [ih cs k (by simp at ht; omega) hcs hk hb]
          · intro hcon
            exact absurd hcon.1 (by decide)
      · rw [maskMathAux_cons_nomatch k (Or.inl hc)] at hb ⊢
        rw [renderMathAux_cons_nomatch (Or.inl hc)]
        dsimp only at hb ⊢
        rw [unmaskFold_cons (maskMathAux_dict_shape n cs k (by simp at ht; omega)) ?_]
        · rw [ih cs k (by simp at ht; omega) hcs hk hb]
        · intro hcon
          obtain ⟨he, hh⟩ := hcon
          have hq := maskMathAux_head hh
          cases cs with
          | nil => simp at hq
          | cons b bs =>
            simp at hq
            subst hq
            subst he
            simp [hasSub, List.isPrefixOf] at hEQ

/-! ## Dollar-free pass-through lemmas -/

theorem breakDollar_none {s : List Char} (h : '$' ∉ s) : breakDollar s = none := by
  induction s with
  | nil => rfl
  | cons c cs ih =>
    simp only [List.mem_cons, not_or] at h
    simp only [breakDollar]
    rw [if_neg (fun hc => h.1 hc.symm)]
    rw [ih h.2]
    rfl

theorem breakDollar_direct {B C : List Char} (hB : '$' ∉ B) :
    breakDollar (B ++ '$' :: C) = some (B, C) := by
  induction B with
  | nil => simp [breakDollar]
  | cons b B2 ih =>
    simp only [List.mem_cons, not_or] at hB
    simp only [List.cons_append, breakDollar, List.append_eq]
    rw [if_neg (fun hc => hB.1 hc.symm)]
    rw [ih hB.2]
    rfl

theorem closeDollars_id {C : List Char} (h : '$' ∉ C) : closeDollars C = C := by
  cases C with
  | nil => rfl
  | cons c cs =>
    simp only [List.mem_cons, not_or] at h
    simp only [closeDollars]
    rw [if_neg (fun hc => h.1 hc.symm)]

theorem tryMathMatch_pair {B C : List Char} (hB : '$' ∉ B) (hC : '$' ∉ C) :
    tryMathMatch (B ++ '$' :: C) = some (B, C) := by
  cases B with
  | nil =>
    simp only [List.nil_append, tryMathMatch, if_true]
    rw [breakDollar_none hC]
  | cons b B2 =>
    simp only [List.mem_cons, not_or] at hB
    simp only [List.cons_append, tryMathMatch]
    rw [if_neg (fun hc => hB.1 hc.symm)]
    rw [show (b :: (B2 ++ '$' :: C)) = (b :: B2) ++ '$' :: C from rfl]
    rw [breakDollar_direct (by
      simp only [List.mem_cons, not_or]
      exact ⟨hB.1, hB.2⟩)]
    dsimp only
    rw [closeDollars_id hC]

theorem tryMathMatch_none_free {B : List Char} (hB : '$' ∉ B) :
    tryMathMatch B = none := by
  cases B with
  | nil => rfl
  | cons b B2 =>
    simp only [List.mem_cons, not_or] at hB
    simp only [tryMathMatch]
    rw [if_neg (fun hc => hB.1 hc.symm)]
    rw [breakDollar_none (by
      simp only [List.mem_cons, not_or]
      exact ⟨hB.1, hB.2⟩)]

theorem maskMathAux_free {t : List Char} (h : '$' ∉ t) (k : Nat) :
    maskMathAux t k = (t, []) := by
  induction t with
  | nil => rw [maskMathAux_nil]
  | cons c cs ih =>
    simp only [List.mem_cons, not_or] at h
    rw [maskMathAux_cons_nomatch k (Or.inl (fun hc => h.1 hc.symm))]
    rw [ih h.2]

theorem maskMathAux_append_free {A : List Char} (hA : '$' ∉ A) (u : List Char) (k : Nat) :
    maskMathAux (A ++ u) k = (A ++ (maskMathAux u k).1, (maskMathAux u k).2) := by
  induction A with
  | nil => simp
  | cons a A2 ih =>
    simp only [List.mem_cons, not_or] at hA
    simp only [List.cons_append]
    rw [maskMathAux_cons_nomatch k (Or.inl (fun hc => hA.1 hc.symm))]
    rw [ih hA.2]

/-! ## Lemmas for the image relocator -/

theorem imgMatch_eq_of {s alt r1 url r2 : List Char}
    (h1 : imgClose1 s = some (alt, r1)) (h2 : imgClose2 r1 = some (url, r2)) :
    imgMatch s = some (url, r2) := by
  rw [imgMatch]
  split
  · rename_i hc
    rw [h1] at hc
    simp at hc
  · rename_i a r hc
    rw [h1] at hc
    simp at hc
    obtain ⟨ha, hr⟩ := hc
    subst hr
    rw [h2]

theorem imgClose1_direct {alt rest : List Char} (h1 : ']' ∉ alt) (h2 : '\n' ∉ alt) :
    imgClose1 (alt ++ ']' :: btk :: '(' :: rest) = some (alt, rest) := by
  induction alt with
  | nil => simp [imgClose1]
  | cons c cs ih =>
    simp only [List.mem_cons, not_or] at h1 h2
    simp only [List.cons_append, imgClose1, List.append_eq]
    rw [if_neg (fun hc => h1.1 hc.1.symm)]
    rw [if_neg (fun hc => h2.1 hc.symm)]
    rw [ih h1.2 h2.2]
    rfl

theorem imgClose2_direct {url post : List Char} (h1 : ')' ∉ url) (h2 : '\n' ∉ url) :
    imgClose2 (url ++ ')' :: post) = some (url, post) := by
  induction url with
  | nil => simp [imgClose2]
  | cons c cs ih =>
    simp only [List.mem_cons, not_or] at h1 h2
    simp only [List.cons_append, imgClose2, List.append_eq]
    rw [if_neg (fun hc => h1.1 hc.symm)]
    rw [if_neg (fun hc => h2.1 hc.symm)]
    rw [ih h1.2 h2.2]
    rfl

theorem replaceImages_nil (f : List Char → Option (List Char)) (u : List Char → List Char) :
    replaceImages f u [] = some [] := by
  rw [replaceImages]

theorem replaceImages_cons_ok {c : Char} {cs url r2 img : List Char}
    (f : List Char → Option (List Char)) (u : List Char → List Char)
    (hc : c = '!' ∧ cs.head? = some btk ∧ cs.tail.head? = some '[')
    (hm : imgMatch cs.tail.tail = some (url, r2)) (hf : f url = some img) :
    replaceImages f u (c :: cs) =
      (replaceImages f u r2).map (fun t => '[' :: (normalizeUrl (u img) ++ ']' :: t)) := by
  rw [replaceImages]
  rw [if_pos hc]
  split
  · rename_i u2 r hm2
    rw [hm] at hm2
    simp at hm2
    obtain ⟨hu, hr⟩ := hm2
    subst hu
    subst hr
    rw [hf]
  · rename_i hm2
    rw [hm] at hm2
    simp at hm2

theorem replaceImages_cons_fail {c : Char} {cs url r2 : List Char}
    (f : List Char → Option (List Char)) (u : List Char → List Char)
    (hc : c = '!' ∧ cs.head? = some btk ∧ cs.tail.head? = some '[')
    (hm : imgMatch cs.tail.tail = some (url, r2)) (hf : f url = none) :
    replaceImages f u (c :: cs) = none := by
  rw [replaceImages]
  rw [if_pos hc]
  split
  · rename_i u2 r hm2
    rw [hm] at hm2
    simp at hm2
    obtain ⟨hu, hr⟩ := hm2
    subst hu
    subst hr
    rw [hf]
  · rename_i hm2
    rw [hm] at hm2
    simp at hm2

theorem replaceImages_cons_skip {c : Char} {cs : List Char}
    (f : List Char → Option (List Char)) (u : List Char → List Char)
    (h : ¬(c = '!' ∧ cs.head? = some btk ∧ cs.tail.head? = some '[') ∨
      imgMatch cs.tail.tail = none) :
    replaceImages f u (c :: cs) = (replaceImages f u cs).map (fun t => c :: t) := by
  rw [replaceImages]
  rcases h with h | h
  · rw [if_neg h]
  · by_cases hc : c = '!' ∧ cs.head? = some btk ∧ cs.tail.head? = some '['
    · rw [if_pos hc]
      split
      · rename_i u2 r hm2
        rw [h] at hm2
        simp at hm2
      · rfl
    · rw [if_neg hc]

theorem imageUrlsIn_nil : imageUrlsIn [] = [] := by
  rw [imageUrlsIn]

theorem imageUrlsIn_cons_img {c : Char} {cs url r2 : List Char}
    (hc : c = '!' ∧ cs.head? = some btk ∧ cs.tail.head? = some '[')
    (hm : imgMatch cs.tail.tail = some (url, r2)) :
    imageUrlsIn (c :: cs) = url :: imageUrlsIn r2 := by
  rw [imageUrlsIn]
  rw [if_pos hc]
  split
  · rename_i u2 r hm2
    rw [hm] at hm2
    simp at hm2
    rw [hm2.1, hm2.2]
  · rename_i hm2
    rw [hm] at hm2
    simp at hm2

theorem imageUrlsIn_cons_skip {c : Char} {cs : List Char}
    (h : ¬(c = '!' ∧ cs.head? = some btk ∧ cs.tail.head? = some '[') ∨
      imgMatch cs.tail.tail = none) :
    imageUrlsIn (c :: cs) = imageUrlsIn cs := by
  rw [imageUrlsIn]
  rcases h with h | h
  · rw [if_neg h]
  · by_cases hc : c = '!' ∧ cs.head? = some btk ∧ cs.tail.head? = some '['
    · rw [if_pos hc]
      split
      · rename_i u2 r hm2
        rw [h] at hm2
        simp at hm2
      · rfl
    · rw [if_neg hc]

theorem replaceImages_id_aux : ∀ (n : Nat) (t : List Char)
    (f : List Char → Option (List Char)) (u : List Char → List Char), t.length ≤ n →
    hasSub ['!', btk, '['] t = false → replaceImages f u t = some t := by
  intro n
  induction n with
  | zero =>
    intro t f u ht _
    have hnil : t = [] := List.length_eq_zero.mp (by omega)
    subst hnil
    exact replaceImages_nil f u
  | succ n ih =>
    intro t f u ht h
    cases t with
    | nil => exact replaceImages_nil f u
    | cons c cs =>
      simp only [hasSub, Bool.or_eq_false_iff] at h
      obtain ⟨hA, hB⟩ := h
      rw [replaceImages_cons_skip f u (Or.inl ?_)]
      · rw [ih cs f u (by simp at ht; omega) hB]
        rfl
      · intro hcon
        obtain ⟨h1, h2, h3⟩ := hcon
        cases cs with
        | nil => simp at h2
        | cons b bs =>
          simp at h2
          cases bs with
          | nil => simp at h3
          | cons b2 bs2 =>
            simp at h3
            subst h1
            subst h2
            subst h3
            simp [List.isPrefixOf] at hA

theorem replaceImages_fail_aux : ∀ (n : Nat) (t : List Char)
    (f : List Char → Option (List Char)) (u : List Char → List Char), t.length ≤ n →
    (∃ url ∈ imageUrlsIn t, f url = none) → replaceImages f u t = none := by
  intro n
  induction n with
  | zero =>
    intro t f u ht h
    have hnil : t = [] := List.length_eq_zero.mp (by omega)
    subst hnil
    rw [imageUrlsIn_nil] at h
    simp at h
  | succ n ih =>
    intro t f u ht h
    cases t with
    | nil =>
      rw [imageUrlsIn_nil] at h
      simp at h
    | cons c cs =>
      have htt : cs.tail.tail.length ≤ cs.length := by
        cases cs with
        | nil => simp
        | cons b bs => cases bs <;> simp [Nat.le_succ_of_le]
      by_cases hc : c = '!' ∧ cs.head? = some btk ∧ cs.tail.head? = some '['
      · cases hm : imgMatch cs.tail.tail with
        | some q =>
          obtain ⟨url, r2⟩ := q
          rw [imageUrlsIn_cons_img hc hm] at h
          cases hf : f url with
          | none => exact replaceImages_cons_fail f u hc hm hf
          | some img =>
            rw [replaceImages_cons_ok f u hc hm hf]
            obtain ⟨u2, hu2, hfu2⟩ := h
            simp at hu2
            rcases hu2 with hu2 | hu2
            · subst hu2
              rw [hf] at hfu2
              simp at hfu2
            · have hr2len : r2.length ≤ n := by
                have := imgMatch_length hm
                simp at ht
                omega
              rw [ih r2 f u hr2len ⟨u2, hu2, hfu2⟩]
              rfl
        | none =>
          rw [imageUrlsIn_cons_skip (Or.inr hm)] at h
          rw [replaceImages_cons_skip f u (Or.inr hm)]
          rw [ih cs f u (by simp at ht; omega) h]
          rfl
      · rw [imageUrlsIn_cons_skip (Or.inl hc)] at h
        rw [replaceImages_cons_skip f u (Or.inl hc)]
        rw [ih cs f u (by simp at ht; omega) h]
        rfl

/-! ## Claim theorems -/

/-- C1 (counterexample): masking then unmasking the document `$x$` yields the
rendered display form `[$ x ]`, not the original document, so the round trip
as claimed fails. -/
theorem C1_counterexample :
    unmaskMath (maskMath ("$x$".data)).1 (maskMath ("$x$".data)).2 = ("[$ x ]".data) ∧
    ("[$ x ]".data : List Char) ≠ ("$x$".data) := by
  refine ⟨?_, by decide⟩
  simp [maskMath, maskMathAux, tryMathMatch, breakDollar, closeDollars, eqKeyL, pad3,
    natToDigits, digitChar, mathTemplate, nl2sp, unmaskMath, replaceAll, List.isPrefixOf]

/-- C1 (amended): for every document with no occurrence of the placeholder
alphabet `EQ` and at most 999 math spans, applying the math masker and then
the math unmasker with the produced mask map yields the document with every
math span replaced in place by its rendered display-math template `[$ … ]`
(newlines in the span collapsed to spaces) — not the original document. -/
theorem C1_math_mask_roundtrip (t : List Char)
    (h1 : hasSub ['E', 'Q'] t = false) (h2 : (maskMath t).2.length ≤ 999) :
    unmaskMath (maskMath t).1 (maskMath t).2 = renderMath t := by
  rw [maskMath] at h2
  rw [maskMath, renderMath, unmaskMath]
  exact mask_unmask_render_aux t.length t 1 (Nat.le_refl _) h1 (by omega) (by omega)

/-- C1 witness: the amended round trip at a concrete document with an inline
and a multi-line block math span. -/
theorem C1_math_mask_roundtrip_witness :
    hasSub ['E', 'Q'] ("see $a$ and $$b\nc$$ end".data) = false ∧
    (maskMath ("see $a$ and $$b\nc$$ end".data)).2.length ≤ 999 ∧
    unmaskMath (maskMath ("see $a$ and $$b\nc$$ end".data)).1
        (maskMath ("see $a$ and $$b\nc$$ end".data)).2 =
      renderMath ("see $a$ and $$b\nc$$ end".data) := by
  have hlen : (maskMath ("see $a$ and $$b\nc$$ end".data)).2.length ≤ 999 := by
    simp [maskMath, maskMathAux, tryMathMatch, breakDollar, closeDollars, eqKeyL, pad3,
      natToDigits, digitChar, mathTemplate, nl2sp]
  exact ⟨by decide, hlen, C1_math_mask_roundtrip _ (by decide) hlen⟩

/-- C2 (counterexample): on the specified input with the identity translate
stub, the pipeline output does not contain the reference text
`[1] Foo, 2020.` byte-for-byte: the bracket escaper, which runs after the
reference unmasker, has wrapped the citation in backticks. -/
theorem C2_counterexample :
    pipelineStub (fun _ => none) (fun _ => [])
        ("# Title\n\nSee $x+y$ for details.\n\n# References\n[1] Foo, 2020.".data) =
      some ("[*** Title]\nSee [$ x+y ] for details.\n\n# References\n`[1]` Foo, 2020.".data) ∧
    hasSub ("[1] Foo, 2020.".data)
      ("[*** Title]\nSee [$ x+y ] for details.\n\n# References\n`[1]` Foo, 2020.".data) = false := by
  refine ⟨?_, by decide⟩
  simp [pipelineStub, extractDeco, decoMatch, decoClose, maskRef, searchRef, matchRefAt,
    takeRun, isWs, matchWordCI, searchSecIdx, secMatchAt, isWord, refKey, maskMath,
    maskMathAux, tryMathMatch, breakDollar, closeDollars, eqKeyL, pad3, natToDigits,
    digitChar, mathTemplate, nl2sp, unmaskRef, unmaskMath, replaceAll, List.isPrefixOf,
    escapeBrackets, brkClose, btk, replaceHeadings, headMatch, isDigitCh, trySplits,
    tryTitle, brkNlSplit, splitLast, replaceImages, imgMatch, imgClose1, imgClose2,
    normalizeUrl, Char.ofNat]

/-- C2 (amended): for any fetch and upload collaborators (no image span occurs,
so they are never consulted), the pipeline with the identity translate stub
maps the specified input to exactly the output shown; the math source `x+y`
survives byte-for-byte inside the display template, the reference text
survives with its bracketed citation wrapped in backticks, and `# Title` is
rewritten to the 3-level emphasis heading `[*** Title]`. -/
theorem C2_end_to_end (fetch : List Char → Option (List Char))
    (upload : List Char → List Char) :
    pipelineStub fetch upload
        ("# Title\n\nSee $x+y$ for details.\n\n# References\n[1] Foo, 2020.".data) =
      some ("[*** Title]\nSee [$ x+y ] for details.\n\n# References\n`[1]` Foo, 2020.".data) ∧
    hasSub ("x+y".data)
      ("[*** Title]\nSee [$ x+y ] for details.\n\n# References\n`[1]` Foo, 2020.".data) = true ∧
    hasSub ("`[1]` Foo, 2020.".data)
      ("[*** Title]\nSee [$ x+y ] for details.\n\n# References\n`[1]` Foo, 2020.".data) = true ∧
    List.take 11
      ("[*** Title]\nSee [$ x+y ] for details.\n\n# References\n`[1]` Foo, 2020.".data) =
      ("[*** Title]".data) := by
  refine ⟨?_, by decide, by decide, by decide⟩
  simp [pipelineStub, extractDeco, decoMatch, decoClose, maskRef, searchRef, matchRefAt,
    takeRun, isWs, matchWordCI, searchSecIdx, secMatchAt, isWord, refKey, maskMath,
    maskMathAux, tryMathMatch, breakDollar, closeDollars, eqKeyL, pad3, natToDigits,
    digitChar, mathTemplate, nl2sp, unmaskRef, unmaskMath, replaceAll, List.isPrefixOf,
    escapeBrackets, brkClose, btk, replaceHeadings, headMatch, isDigitCh, trySplits,
    tryTitle, brkNlSplit, splitLast, replaceImages, imgMatch, imgClose1, imgClose2,
    normalizeUrl, Char.ofNat]

/-- C3 (counterexample): the heading rewriter, whose `^` anchor is compiled
without `re.MULTILINE`, leaves a line matching the heading pattern unreplaced
when it is not at the very start of the buffer. -/
theorem C3_counterexample :
    replaceHeadings ("x\n# Title\n".data) = ("x\n# Title\n".data) ∧
    headMatch ("# Title\n".data) = some (1, "Title".data, []) ∧
    ("x\n# Title\n".data : List Char) ≠
      ("x\n".data ++ '[' :: (List.replicate 3 '*' ++ ' ' :: ("Title".data ++ [']']))) := by
  refine ⟨?_, ?_, by decide⟩
  · simp [replaceHeadings, headMatch, takeRun, isDigitCh, isWs, trySplits, tryTitle,
      brkNlSplit, splitLast]
  · simp [headMatch, takeRun, isDigitCh, isWs, trySplits, tryTitle, brkNlSplit, splitLast]

/-- C3 (amended): only a heading at position 0 of the buffer, terminated by a
newline, is rewritten: a buffer decomposing as numeric prefix, run of `n`
heading markers, whitespace run, non-empty single-line title and newline is
rewritten to the bracketed marker with the emphasis character repeated
`max 1 (4 - n)` times followed by the title, the numeric prefix stripped and
the rest of the buffer untouched; in particular source depth 1 maps to target
depth 3, depth 3 to depth 1, and depth 5 to depth 1. -/
theorem C3_heading_rewrite (P H W C R : List Char)
    (hP : ∀ c ∈ P, (isDigitCh c || c = '.') = true)
    (hH : H ≠ []) (hHall : ∀ c ∈ H, c = '#')
    (hW : W ≠ []) (hWall : ∀ c ∈ W, isWs c = true)
    (hC : C ≠ []) (hCh : ∀ c ∈ C.take 1, isWs c = false)
    (hCn : '\n' ∉ C) :
    replaceHeadings (P ++ (H ++ (W ++ (C ++ '\n' :: R)))) =
      '[' :: (List.replicate (max 1 (4 - H.length)) '*' ++ ' ' :: (C ++ ']' :: R)) := by
  rw [replaceHeadings, headMatch_direct hP hH hHall hW hWall hC ?_ hCn]
  intro c hc
  cases C with
  | nil => simp at hc
  | cons c0 cs =>
    simp at hc
    subst hc
    exact hCh c0 (by simp)

/-- C3 witness: the amended rewrite at a depth-2 heading with a numeric
prefix, and the depth mapping at depths 1, 3 and 5. -/
theorem C3_heading_rewrite_witness :
    replaceHeadings (("1.".data) ++ (("##".data) ++ ((" ".data) ++
        (("Intro".data) ++ '\n' :: ("rest".data))))) =
      '[' :: (List.replicate (max 1 (4 - ("##".data).length)) '*' ++ ' ' ::
        (("Intro".data) ++ ']' :: ("rest".data))) ∧
    max 1 (4 - 1) = 3 ∧ max 1 (4 - 3) = 1 ∧ max 1 (4 - 5) = 1 :=
  ⟨C3_heading_rewrite _ _ _ _ _ (by decide) (by decide) (by decide) (by decide)
    (by decide) (by decide) (by decide) (by decide), by decide, by decide, by decide⟩

/-- C4 (counterexample): the masked reference-section body stops at the next
occurrence of `#+\s+\w+` anywhere — here the mid-line `# x` — not at the next
heading line `# Next`, so the body claimed by the specification (running to
the next heading line) differs from the stored one. -/
theorem C4_counterexample :
    (maskRef ("# References\nA # x\n# Next\nB".data)).2 =
      [(refKey, "\nA ".data)] ∧
    ("\nA ".data : List Char) ≠ ("\nA # x\n".data) := by
  exact ⟨by decide, by decide⟩

/-- C4 witness: the section-extent characterization at a document whose
references section is followed by another heading. -/
theorem C4_ref_section_extent_witness :
    searchRef ("# References\nA\n# Next\nB".data) =
      some ([], "# References".data, "\nA\n# Next\nB".data) ∧
    (∃ body post, ("\nA\n# Next\nB".data : List Char) = body ++ post ∧
      maskRef ("# References\nA\n# Next\nB".data) =
        ([] ++ "# References".data ++ refKey ++ post, [(refKey, body)]) ∧
      (∀ i < body.length, secMatchAt (("\nA\n# Next\nB".data).drop i) = false) ∧
      (post = [] ∨ secMatchAt post = true) ∧
      ("# References\nA\n# Next\nB".data : List Char) =
        [] ++ "# References".data ++ "\nA\n# Next\nB".data) :=
  ⟨by decide, C4_ref_section_extent (by decide)⟩

/-- C5 (counterexample): a document that itself contains the literal
placeholder `#REF#` before the heading is not restored by the
mask/unmask round trip. -/
theorem C5_counterexample :
    unmaskRef (maskRef ("#REF# \n# References\nbody".data)).1
        (maskRef ("#REF# \n# References\nbody".data)).2 =
      ("\nbody \n# References\nbody".data) ∧
    ("\nbody \n# References\nbody".data : List Char) ≠
      ("#REF# \n# References\nbody".data) := by
  refine ⟨?_, by decide⟩
  simp [maskRef, searchRef, matchRefAt, takeRun, isWs, matchWordCI, searchSecIdx,
    secMatchAt, isWord, refKey, unmaskRef, replaceAll, List.isPrefixOf]

/-- C5 witness: the amended round trip at a document free of the literal
placeholder token. -/
theorem C5_ref_mask_roundtrip_witness :
    hasSub refKey ("intro\n# References\n[1] A.".data) = false ∧
    unmaskRef (maskRef ("intro\n# References\n[1] A.".data)).1
        (maskRef ("intro\n# References\n[1] A.".data)).2 =
      ("intro\n# References\n[1] A.".data) :=
  ⟨by decide, C5_ref_mask_roundtrip _ (by decide)⟩

/-- C6: the math placeholder keys produced in one run are exactly
`eqKeyL 1, eqKeyL 2, …` (`EQ` followed by the counter zero-padded to at least
three digits, starting at 001) in left-to-right match order, strictly
increasing in counter order and therefore pairwise distinct. -/
theorem C6_math_key_sequence (t : List Char) :
    ((maskMath t).2).map Prod.fst =
      (List.range' 1 ((maskMath t).2).length).map eqKeyL ∧
    (((maskMath t).2).map Prod.fst).Nodup := by
  have hk : ((maskMath t).2).map Prod.fst =
      (List.range' 1 ((maskMath t).2).length).map eqKeyL := by
    rw [maskMath]
    exact maskMathAux_keys (("" : String).length + t.length) t 1 (by simp)
  refine ⟨hk, ?_⟩
  rw [hk]
  exact (List.nodup_range' _ _).map (fun a b h => eqKeyL_inj h)

/-- C7: if fetching the bytes of any matched image URL does not succeed, the
image relocator aborts the entire pass and produces no output buffer — in
particular no partially substituted buffer is returned. -/
theorem C7_fatal_on_fetch_failure (fetch : List Char → Option (List Char))
    (upload : List Char → List Char) (t : List Char)
    (h : ∃ url ∈ imageUrlsIn t, fetch url = none) :
    replaceImages fetch upload t = none :=
  replaceImages_fail_aux t.length t fetch upload (Nat.le_refl _) h

/-- C7 witness: a buffer with one image span whose URL always fails to
fetch. -/
theorem C7_fatal_on_fetch_failure_witness :
    (∃ url ∈ imageUrlsIn ("!`[a]`(u)".data),
      (fun (_ : List Char) => (none : Option (List Char))) url = none) ∧
    replaceImages (fun _ => none) (fun _ => []) ("!`[a]`(u)".data) = none := by
  have him : imgMatch ("a]`(u)".data) = some ("u".data, []) :=
    @imgMatch_eq_of ("a]`(u)".data) ("a".data) ("u)".data) ("u".data) []
      (by decide) (by decide)
  have hurls : imageUrlsIn ("!`[a]`(u)".data) = [("u".data)] := by
    rw [show ("!`[a]`(u)".data : List Char) = '!' :: ("`[a]`(u)".data) from rfl]
    rw [@imageUrlsIn_cons_img '!' ("`[a]`(u)".data) ("u".data) [] (by decide)
      (show imgMatch (("`[a]`(u)".data).tail.tail) = some ("u".data, []) from him)]
    rw [imageUrlsIn_nil]
  have hex : ∃ url ∈ imageUrlsIn ("!`[a]`(u)".data),
      (fun (_ : List Char) => (none : Option (List Char))) url = none := by
    rw [hurls]
    exact ⟨"u".data, by simp, rfl⟩
  exact ⟨hex, C7_fatal_on_fetch_failure _ (fun _ => []) _ hex⟩

/-- C8 (counterexample): an input containing no heading line at all, but a
mid-line occurrence of `# reference`, is masked rather than returned
unchanged: the search pattern is not anchored to line starts and accepts the
singular spelling. -/
theorem C8_counterexample :
    maskRef ("say # reference here".data) =
      ("say # reference".data ++ refKey, [(refKey, " here".data)]) ∧
    ("say # reference".data ++ refKey, [(refKey, " here".data)]) ≠
      (("say # reference here".data : List Char),
        ([] : List (List Char × List Char))) := by
  exact ⟨by decide, by decide⟩

/-- C8 witness: the no-op behaviour at an input where the pattern matches
nowhere. -/
theorem C8_no_ref_heading_noop_witness :
    (∀ i < ("no references here".data : List Char).length,
      matchRefAt (("no references here".data).drop i) = none) ∧
    maskRef ("no references here".data) = ("no references here".data, []) :=
  ⟨by decide, C8_no_ref_heading_noop _ (by decide)⟩

/-- C9: for every text containing exactly two dollar signs — written
`A ++ '$' :: (B ++ '$' :: C)` with `A`, `B`, `C` dollar-free — the math
masker replaces the entire span from the first through the second dollar,
inclusive, by the single placeholder `EQ001`, storing the intervening text
(newlines replaced by spaces) wrapped in the display-math template; and a
text with exactly one unpaired dollar is returned unchanged with an empty
map. -/
theorem C9_dollar_pair_masking (A B C : List Char)
    (hA : '$' ∉ A) (hB : '$' ∉ B) (hC : '$' ∉ C) :
    maskMath (A ++ '$' :: (B ++ '$' :: C)) =
      (A ++ eqKeyL 1 ++ C, [(eqKeyL 1, mathTemplate B)]) ∧
    maskMath (A ++ '$' :: B) = (A ++ '$' :: B, []) ∧
    eqKeyL 1 = ("EQ001".data) := by
  refine ⟨?_, ?_, ?_⟩
  · rw [maskMath, maskMathAux_append_free hA]
    rw [maskMathAux_cons_match 1 rfl (tryMathMatch_pair hB hC)]
    rw [maskMathAux_free hC]
    simp
  · rw [maskMath, maskMathAux_append_free hA]
    rw [maskMathAux_cons_nomatch 1 (Or.inr (tryMathMatch_none_free hB))]
    rw [maskMathAux_free hB]
  · simp [eqKeyL, pad3, natToDigits, digitChar]

/-- C9 witness: the two-dollar and one-dollar behaviours at concrete
currency-style inputs. -/
theorem C9_dollar_pair_masking_witness :
    ('$' ∉ ("pay ".data : List Char)) ∧ ('$' ∉ ("5 or ".data : List Char)) ∧
    ('$' ∉ ("7 now".data : List Char)) ∧
    maskMath (("pay ".data) ++ '$' :: (("5 or ".data) ++ '$' :: ("7 now".data))) =
      (("pay ".data) ++ eqKeyL 1 ++ ("7 now".data),
        [(eqKeyL 1, mathTemplate ("5 or ".data))]) ∧
    maskMath (("pay ".data) ++ '$' :: ("5 or ".data)) =
      (("pay ".data) ++ '$' :: ("5 or ".data), []) := by
  have h := C9_dollar_pair_masking ("pay ".data) ("5 or ".data) ("7 now".data)
    (by decide) (by decide) (by decide)
  exact ⟨by decide, by decide, by decide, h.1, h.2.1⟩

/-- C10: the image relocator substitutes `[normalizedUrl]` for the whole
matched span, discarding the alt text, where the normalization replaces every
occurrence of `i.gyazo.com` by `gyazo.com` and deletes every occurrence of
`.png` and `.jpg` anywhere in the uploaded URL, not only as a trailing
extension. -/
theorem C10_image_url_normalization (fetch : List Char → Option (List Char))
    (upload : List Char → List Char) (img alt url post : List Char)
    (halt1 : ']' ∉ alt) (halt2 : '\n' ∉ alt)
    (hurl1 : ')' ∉ url) (hurl2 : '\n' ∉ url)
    (hf : fetch url = some img) :
    replaceImages fetch upload
        ('!' :: btk :: '[' :: (alt ++ ']' :: btk :: '(' :: (url ++ ')' :: post))) =
      (replaceImages fetch upload post).map
        (fun t => '[' :: (normalizeUrl (upload img) ++ ']' :: t)) ∧
    normalizeUrl ("https://i.gyazo.com/a.pngb/c.jpgd.png".data) =
      ("https://gyazo.com/ab/cd".data) ∧
    normalizeUrl (".pngA.png.jpgB.jpg".data) = ("AB".data) := by
  refine ⟨?_, ?_, ?_⟩
  · exact replaceImages_cons_ok fetch upload ⟨rfl, rfl, rfl⟩
      (imgMatch_eq_of (imgClose1_direct halt1 halt2) (imgClose2_direct hurl1 hurl2)) hf
  · simp [normalizeUrl, replaceAll, List.isPrefixOf]
  · simp [normalizeUrl, replaceAll, List.isPrefixOf]

/-- C10 witness: one image span with a concrete fetch and an upload returning
a URL with host and extensions to normalize. -/
theorem C10_image_url_normalization_witness :
    (']' ∉ ("alt".data : List Char)) ∧ (')' ∉ ("http://u/i.png".data : List Char)) ∧
    (fun (_ : List Char) => some ("IMG".data)) ("http://u/i.png".data) =
      some ("IMG".data) ∧
    replaceImages (fun _ => some ("IMG".data)) (fun _ => "https://i.gyazo.com/x.png".data)
        ('!' :: btk :: '[' :: (("alt".data) ++ ']' :: btk :: '(' ::
          (("http://u/i.png".data) ++ ')' :: (" end".data)))) =
      (replaceImages (fun _ => some ("IMG".data))
          (fun _ => "https://i.gyazo.com/x.png".data) (" end".data)).map
        (fun t => '[' :: (normalizeUrl ("https://i.gyazo.com/x.png".data) ++ ']' :: t)) := by
  have h := C10_image_url_normalization (fun _ => some ("IMG".data))
    (fun _ => "https://i.gyazo.com/x.png".data) ("IMG".data) ("alt".data)
    ("http://u/i.png".data) (" end".data) (by decide) (by decide) (by decide)
    (by decide) rfl
  exact ⟨by decide, by decide, rfl, h.1⟩
